import Mathlib

/-!
Shallow embedding of the bidiff core (`crates/bidiff/src/lib.rs`): the bsdiff-style
match scanner (`BsdiffIterator`), the match-to-control `Translator`, the chunked scan
orchestration in `diff`, parameter validation (`DiffParams::new`), and the patch
applier used by `assert_cycle`. Byte buffers are lists of integers mod 256; the
suffix-array index is abstracted as a function together with its contract.
-/

namespace Bidiff

/-- Bytes are modelled as integers mod 256, matching Rust `u8` wrapping arithmetic. -/
abbrev Byte := ZMod 256

/-- The `as usize` cast of a signed machine integer on a 64-bit target: reduction
modulo 2^64, reinterpreted as a natural number. -/
def asUsize (x : Int) : Nat := (x % ((2 : Int) ^ 64)).toNat

/-- The sub-list `l[a..b]` (Rust slice `&l[a..b]`). -/
def slice (l : List Byte) (a b : Nat) : List Byte := (l.drop a).take (b - a)

/-- One segment of NEW, as emitted by the scanner (struct `Match` in the source). -/
structure Match where
  add_old_start : Nat
  add_new_start : Nat
  add_length : Nat
  copy_end : Nat
deriving Repr, DecidableEq

/-- Derived start of the literal copy region (`Match::copy_start`). -/
def Match.copy_start (m : Match) : Nat := m.add_new_start + m.add_length

/-- The logical patch record (struct `Control` in the source). -/
structure Control where
  add : List Byte
  copy : List Byte
  seek : Int
deriving Repr, DecidableEq

/-- Bounds satisfied by a well-formed match over the given buffers. -/
def MBounds (obuf nbuf : List Byte) (m : Match) : Prop :=
  m.add_old_start + m.add_length ≤ obuf.length ∧
  m.copy_start ≤ m.copy_end ∧ m.copy_end ≤ nbuf.length

/-- The match list exactly tiles the half-open interval `[a, b)` of NEW:
each match starts where the previous one ended, the first starts at `a`,
and the last ends at `b`. -/
def Tiles (a b : Nat) : List Match → Prop
  | [] => a = b
  | m :: rest => m.add_new_start = a ∧ Tiles m.copy_end b rest

/-! ## Translator (`Translator` in the source) -/

/-- Translator state: the pending previous match, its staged `add` bytes, and the
`closed` flag (fields `prev_match`, `buf`, `closed`). -/
structure TState where
  prev_match : Option Match
  buf : List Byte
  closed : Bool
deriving Repr, DecidableEq

/-- Initial translator state (`Translator::new`). -/
def initT : TState := ⟨none, [], false⟩

/-- The staged diff bytes for a match: elementwise wrapping subtraction
`nbuf[m.add_new_start + i] - obuf[m.add_old_start + i]` (built in `Translator::translate`). -/
def addBytes (obuf nbuf : List Byte) (m : Match) : List Byte :=
  (List.range m.add_length).map
    (fun i => nbuf.getD (m.add_new_start + i) 0 - obuf.getD (m.add_old_start + i) 0)

/-- `Translator::send_control`: if a previous match is pending, emit its control;
its `seek` is determined by the next match (or 0 at close), and `prev_match` is taken. -/
def sendControl (nbuf : List Byte) (st : TState) (m : Option Match) :
    List Control × TState :=
  match st.prev_match with
  | none => ([], st)
  | some pm =>
      ([{ add := st.buf.take pm.add_length,
          copy := slice nbuf pm.copy_start pm.copy_end,
          seek := match m with
            | some m => (m.add_old_start : Int) - ((pm.add_old_start : Int) + (pm.add_length : Int))
            | none => 0 }],
       { st with prev_match := none })

/-- `Translator::translate`: flush the pending control, then stage the new match. -/
def translateStep (obuf nbuf : List Byte) (st : TState) (m : Match) : List Control × TState :=
  let r := sendControl nbuf st (some m)
  (r.1, { r.2 with buf := addBytes obuf nbuf m, prev_match := some m })

/-- `Translator::do_close`: emit the terminal control (with `seek = 0`) once. -/
def doClose (nbuf : List Byte) (st : TState) : List Control × TState :=
  if st.closed then ([], st)
  else
    let r := sendControl nbuf st none
    (r.1, { r.2 with closed := true })

/-- Feed matches one by one through `Translator::translate`, collecting the controls. -/
def runTranslate (obuf nbuf : List Byte) (st : TState) : List Match → List Control × TState
  | [] => ([], st)
  | m :: rest =>
      let r := translateStep obuf nbuf st m
      let r' := runTranslate obuf nbuf r.2 rest
      (r.1 ++ r'.1, r'.2)

/-- All controls produced by translating a match list and then closing. -/
def translateAll (obuf nbuf : List Byte) (ms : List Match) : List Control :=
  let r := runTranslate obuf nbuf initT ms
  r.1 ++ (doClose nbuf r.2).1

/-- Closed form of the translator's output: one control per match, whose `seek` is
`next.add_old_start - (prev.add_old_start + prev.add_length)` (signed), the final
control having `seek = 0`. -/
def controlsOf (obuf nbuf : List Byte) : List Match → List Control
  | [] => []
  | [m] => [⟨addBytes obuf nbuf m, slice nbuf m.copy_start m.copy_end, 0⟩]
  | m :: n :: rest =>
      ⟨addBytes obuf nbuf m, slice nbuf m.copy_start m.copy_end,
        (n.add_old_start : Int) - ((m.add_old_start : Int) + (m.add_length : Int))⟩
        :: controlsOf obuf nbuf (n :: rest)

/-! ## Scanner (`BsdiffIterator` in the source) -/

/-- Does OLD, displaced by `lastoffset`, agree with NEW at position `j`? This is the
guarded comparison `oi < obuflen && obuf[oi] == nbuf[j]` used by the scanner's
scoring loops, with the wrapping `as usize` cast of `j as isize + lastoffset`. -/
def hitAt (obuf nbuf : List Byte) (lastoffset : Int) (j : Nat) : Bool :=
  let oi := asUsize ((j : Int) + lastoffset)
  decide (oi < obuf.length ∧ obuf.getD oi 0 = nbuf.getD j 0)

/-- Result of the scanner's inner loop: final `scan`, `pos`, `length`, `oldscore`. -/
structure InnerRes where
  scan : Nat
  pos : Nat
  length : Nat
  oldscore : Nat
deriving Repr, DecidableEq

/-- The scanner's `'inner` loop. Each iteration queries the index at `nbuf[scan..]`,
runs the `while scsc < scan + length` counting loop (modelled as counting the hits
over the traversed range), breaks on `same_length || significantly_better`, and
otherwise decrements `oldscore` for the departing position and advances `scan`.
Any fuel exceeding `nbuf.length - scan` suffices. -/
def innerLoop (obuf nbuf : List Byte) (lsm : List Byte → Nat × Nat) (lastoffset : Int) :
    Nat → Nat → Nat → Nat → Nat → Nat → InnerRes
  | 0, scan, pos, length, _scsc, oldscore => ⟨scan, pos, length, oldscore⟩
  | fuel + 1, scan, pos, length, scsc, oldscore =>
    if scan < nbuf.length then
      let r := lsm (nbuf.drop scan)
      let pos := r.1
      let length := r.2
      let oldscore := oldscore +
        (List.range' scsc (scan + length - scsc)).countP (hitAt obuf nbuf lastoffset)
      let scsc := max scsc (scan + length)
      if (length = oldscore ∧ length ≠ 0) ∨ oldscore + 8 < length then
        ⟨scan, pos, length, oldscore⟩
      else
        let oldscore := if hitAt obuf nbuf lastoffset scan then oldscore - 1 else oldscore
        innerLoop obuf nbuf lsm lastoffset fuel (scan + 1) pos length scsc oldscore
    else ⟨scan, pos, length, oldscore⟩

/-- One step of the forward-extension scoring loop, state `(s, sf, lenf)` (all
`isize` in the source); the score metric is `2 * matches - length` evaluated at
`i + 1`. -/
def lenfStep (obuf nbuf : List Byte) (lastpos lastscan : Nat)
    (acc : Int × Int × Int) (i : Nat) : Int × Int × Int :=
  let s := if obuf.getD (lastpos + i) 0 = nbuf.getD (lastscan + i) 0 then acc.1 + 1 else acc.1
  if acc.2.1 * 2 - acc.2.2 < s * 2 - ((i : Int) + 1) then (s, s, (i : Int) + 1)
  else (s, acc.2.1, acc.2.2)

/-- The forward extension length before the `as usize` cast. -/
def lenfInt (obuf nbuf : List Byte) (lastpos lastscan bound : Nat) : Int :=
  ((List.range bound).foldl (lenfStep obuf nbuf lastpos lastscan) (0, 0, 0)).2.2

/-- One step of the backward-extension scoring loop, state `(s, sb, lenb)`. -/
def lenbStep (obuf nbuf : List Byte) (pos scan : Nat)
    (acc : Int × Int × Int) (i : Nat) : Int × Int × Int :=
  let s := if obuf.getD (pos - i) 0 = nbuf.getD (scan - i) 0 then acc.1 + 1 else acc.1
  if acc.2.1 * 2 - acc.2.2 < s * 2 - (i : Int) then (s, s, (i : Int))
  else (s, acc.2.1, acc.2.2)

/-- The backward extension length before the `as usize` cast; the loop runs over
`1 ..= bound`. -/
def lenbInt (obuf nbuf : List Byte) (pos scan bound : Nat) : Int :=
  ((List.range' 1 bound).foldl (lenbStep obuf nbuf pos scan) (0, 0, 0)).2.2

/-- One step of the overlap-arbitration loop, state `(s, ss, lens)` with `s, ss`
signed and `lens : usize`. -/
def lensStep (obuf nbuf : List Byte) (lastscan lastpos pos scan lenf lenb overlap : Nat)
    (acc : Int × Int × Nat) (i : Nat) : Int × Int × Nat :=
  let s := if nbuf.getD (lastscan + lenf - overlap + i) 0
      = obuf.getD (lastpos + lenf - overlap + i) 0 then acc.1 + 1 else acc.1
  let s := if nbuf.getD (scan - lenb + i) 0 = obuf.getD (pos - lenb + i) 0 then s - 1 else s
  if acc.2.1 < s then (s, s, i + 1) else (s, acc.2.1, acc.2.2)

/-- The overlap split point `lens`. -/
def lensNat (obuf nbuf : List Byte) (lastscan lastpos pos scan lenf lenb overlap : Nat) : Nat :=
  ((List.range overlap).foldl (lensStep obuf nbuf lastscan lastpos pos scan lenf lenb overlap)
    (0, 0, 0)).2.2

/-- Scanner state across outer-loop iterations (fields of `BsdiffIterator`). -/
structure ScanState where
  scan : Nat
  pos : Nat
  length : Nat
  lastscan : Nat
  lastpos : Nat
  lastoffset : Int
deriving Repr, DecidableEq

/-- Initial scanner state (`BsdiffIterator::new`): all zero. -/
def initScan : ScanState := ⟨0, 0, 0, 0, 0, 0⟩

/-- The emission step ending an outer-loop iteration: compute `lenf` and `lenb`,
arbitrate the overlap if `lastscan + lenf > scan - lenb`, and return the emitted
match together with the updated `lastscan` and `lastpos`. -/
def emitMatch (obuf nbuf : List Byte) (lastscan lastpos scan pos : Nat) : Match × Nat × Nat :=
  let lenf := asUsize (lenfInt obuf nbuf lastpos lastscan
    (min (scan - lastscan) (obuf.length - lastpos)))
  let lenb := if nbuf.length ≤ scan then 0
    else asUsize (lenbInt obuf nbuf pos scan (min (scan - lastscan) pos))
  let fb :=
    if scan - lenb < lastscan + lenf then
      let overlap := lastscan + lenf - (scan - lenb)
      let lens := lensNat obuf nbuf lastscan lastpos pos scan lenf lenb overlap
      (lenf + lens - overlap, lenb - lens)
    else (lenf, lenb)
  (⟨lastpos, lastscan, fb.1, scan - fb.2⟩, scan - fb.2, pos - fb.2)

/-- The scanner's outer loop, collecting every match `BsdiffIterator::next` yields.
Each iteration adds `length` to `scan`, resets `oldscore` and `scsc`, runs the inner
loop, and emits a match when `length != oldscore || done_scanning`. Fuel
`2 * nbuf.length + 2` always suffices. -/
def outerLoop (obuf nbuf : List Byte) (lsm : List Byte → Nat × Nat) :
    Nat → ScanState → List Match
  | 0, _ => []
  | fuel + 1, st =>
    if st.scan < nbuf.length then
      let r := innerLoop obuf nbuf lsm st.lastoffset (nbuf.length + 1)
        (st.scan + st.length) st.pos st.length (st.scan + st.length) 0
      if r.length ≠ r.oldscore ∨ r.scan = nbuf.length then
        let e := emitMatch obuf nbuf st.lastscan st.lastpos r.scan r.pos
        e.1 :: outerLoop obuf nbuf lsm fuel
          ⟨r.scan, r.pos, r.length, e.2.1, e.2.2, (r.pos : Int) - (r.scan : Int)⟩
      else
        outerLoop obuf nbuf lsm fuel
          ⟨r.scan, r.pos, r.length, st.lastscan, st.lastpos, st.lastoffset⟩
    else []

/-- All matches produced by one scan of NEW against OLD. -/
def bsdiffMatches (obuf nbuf : List Byte) (lsm : List Byte → Nat × Nat) : List Match :=
  outerLoop obuf nbuf lsm (2 * nbuf.length + 2) initScan

/-! ## Parameters and the `diff` driver -/

/-- Parameters used when creating diffs (struct `DiffParams`). -/
structure DiffParams where
  sort_partitions : Nat
  scan_chunk_size : Option Nat
deriving Repr, DecidableEq

/-- `DiffParams::new`: check validity and store the parameters. -/
def DiffParams.new (sort_partitions : Nat) (scan_chunk_size : Option Nat) :
    Except String DiffParams :=
  if sort_partitions < 1 then
    .error "number of sort partitions cannot be less than 1"
  else if (scan_chunk_size.filter (fun s => decide (s < 1))).isSome then
    .error "scan chunk size cannot be less than 1"
  else
    .ok ⟨sort_partitions, scan_chunk_size⟩

/-- Number of scan chunks: `(nbuf.len() + chunk_size - 1) / chunk_size`. -/
def numChunks (n s : Nat) : Nat := (n + s - 1) / s

/-- Chunk `i` of NEW, as produced by `par_chunks(chunk_size)`. -/
def chunk (nbuf : List Byte) (s i : Nat) : List Byte := (nbuf.drop (i * s)).take s

/-- The offset fix-up applied to a chunk-local match before it is forwarded:
`m.add_new_start += offset; m.copy_end += offset`. -/
def offsetMatch (off : Nat) (m : Match) : Match :=
  { m with add_new_start := m.add_new_start + off, copy_end := m.copy_end + off }

/-- Chunked-mode scan: every chunk is scanned with a fresh zero-initialised scanner
against the same index of the full OLD; matches are forwarded in chunk order, within
a chunk in emission order, after the offset fix-up by `chunk_index * chunk_size`. -/
def chunkedMatches (obuf nbuf : List Byte) (lsm : List Byte → Nat × Nat) (s : Nat) :
    List Match :=
  (List.range (numChunks nbuf.length s)).flatMap
    (fun i => (bsdiffMatches obuf (chunk nbuf s i) lsm).map (offsetMatch (i * s)))

/-- The match stream that `diff` forwards to its callback for given parameters. -/
def diffMatches (obuf nbuf : List Byte) (lsm : List Byte → Nat × Nat) (p : DiffParams) :
    List Match :=
  match p.scan_chunk_size with
  | some s => chunkedMatches obuf nbuf lsm s
  | none => bsdiffMatches obuf nbuf lsm

/-! ## The applier (from `assert_cycle`) -/

/-- The patch applier of `assert_cycle`: for each control, reconstruct the diff
region by wrapping-adding OLD at the running OLD cursor, append the literal copy
bytes, and advance the OLD cursor by `add_length` then `seek` (with the `as usize`
narrowing of the signed sum). -/
def applyControls (obuf : List Byte) : Nat → List Control → List Byte
  | _, [] => []
  | op, c :: rest =>
      ((List.range c.add.length).map (fun i => c.add.getD i 0 + obuf.getD (op + i) 0))
        ++ c.copy
        ++ applyControls obuf (asUsize ((op : Int) + (c.add.length : Int) + c.seek)) rest

/-! ## The substring-index contract -/

/-- A valid answer of the substring index for query `q`: `obuf[s..s+l]` equals the
first `l` bytes of `q`, in bounds on both sides. -/
def MatchesAt (obuf q : List Byte) (s l : Nat) : Prop :=
  s + l ≤ obuf.length ∧ l ≤ q.length ∧ (obuf.drop s).take l = q.take l

/-- Contract of `StringIndex::longest_substring_match` over OLD: the returned
`(start, len)` is a valid answer, and no valid answer is longer. -/
def LsmSpec (obuf : List Byte) (lsm : List Byte → Nat × Nat) : Prop :=
  ∀ q, MatchesAt obuf q (lsm q).1 (lsm q).2 ∧
    ∀ s l, MatchesAt obuf q s l → l ≤ (lsm q).2

/-- Length of the longest common initial run of two byte lists. -/
def commonLen : List Byte → List Byte → Nat
  | x :: xs, y :: ys => if x = y then commonLen xs ys + 1 else 0
  | _, _ => 0

/-- Reference substring index: brute-force search for the longest common run of the
query with any suffix of OLD. It satisfies `LsmSpec` (proved below). -/
def naiveLsm (obuf q : List Byte) : Nat × Nat :=
  (List.range (obuf.length + 1)).foldl
    (fun best s =>
      if best.2 < commonLen (obuf.drop s) q then (s, commonLen (obuf.drop s) q) else best)
    (0, 0)

/-! ## Fallible translator (sink errors), for the close/drop semantics -/

/-- Run the control sink over a list of controls, stopping at the first error (the
`?` operator applied to `on_control`). -/
def runSink {E : Type} (sink : Control → Except E Unit) : List Control → Except E Unit
  | [] => .ok ()
  | c :: rest => match sink c with
    | .ok _ => runSink sink rest
    | .error e => .error e

/-- `Translator::do_close` with a fallible sink: on sink failure the error is
returned before the `closed` flag is set (the early return of `?`); the middle
component records the controls handed to the sink. -/
def doCloseE {E : Type} (sink : Control → Except E Unit) (nbuf : List Byte) (st : TState) :
    Except E Unit × List Control × TState :=
  if st.closed then (.ok (), [], st)
  else
    let r := sendControl nbuf st none
    match runSink sink r.1 with
    | .ok _ => (.ok (), r.1, { r.2 with closed := true })
    | .error e => (.error e, r.1, r.2)

/-- The `Drop` impl for `Translator`: `do_close().unwrap_or(())` — the close is
performed best-effort and any sink error is swallowed; only the state remains. -/
def dropClose {E : Type} (sink : Control → Except E Unit) (nbuf : List Byte) (st : TState) :
    TState := (doCloseE sink nbuf st).2.2

/-! ## Basic lemmas: casts, slices, indexed maps -/

theorem asUsize_coe (n : Nat) (h : n < 2 ^ 64) : asUsize (n : Int) = n := by
  unfold asUsize
  rw [Int.emod_eq_of_lt (by positivity) (by exact_mod_cast h)]
  simp

theorem asUsize_nonneg_small (x : Int) (h0 : 0 ≤ x) (h : x < (2 : Int) ^ 64) :
    (asUsize x : Int) = x := by
  unfold asUsize
  rw [Int.emod_eq_of_lt h0 (by exact_mod_cast h)]
  exact Int.toNat_of_nonneg h0

theorem slice_len_zero (l : List Byte) (a : Nat) : slice l a a = ([] : List Byte) := by
  simp [slice]

theorem slice_append (l : List Byte) (a b c : Nat) (hab : a ≤ b) (hbc : b ≤ c) :
    slice l a b ++ slice l b c = slice l a c := by
  unfold slice
  rw [show c - a = (b - a) + (c - b) by omega, List.take_add, List.drop_drop]
  rw [show a + (b - a) = b by omega]

theorem slice_all (l : List Byte) : slice l 0 l.length = l := by
  simp [slice]

theorem map_getD_eq_slice (l : List Byte) (a n : Nat) (h : a + n ≤ l.length) :
    (List.range n).map (fun j => l.getD (a + j) 0) = slice l a (a + n) := by
  induction n generalizing a with
  | zero => simp [slice]
  | succ k ih =>
      rw [List.range_succ_eq_map, List.map_cons, List.map_map]
      have ha : a < l.length := by omega
      have h1 : (fun j => l.getD (a + j) 0) ∘ (· + 1) = fun j => l.getD (a + 1 + j) 0 := by
        funext j
        simp only [Function.comp]
        congr 1
        omega
      rw [h1, ih (a + 1) (by omega)]
      unfold slice
      rw [show a + (k + 1) - a = k + 1 by omega, show a + 1 + k - (a + 1) = k by omega,
        List.drop_eq_getElem_cons ha, List.take_succ_cons]
      congr 1
      simp [List.getD_eq_getElem?_getD, List.getElem?_eq_getElem ha]

/-! ## Translator: closed form of the emitted control stream -/

theorem addBytes_length (obuf nbuf : List Byte) (m : Match) :
    (addBytes obuf nbuf m).length = m.add_length := by
  simp [addBytes]

theorem runTranslate_closed (obuf nbuf : List Byte) :
    ∀ ms pm, (runTranslate obuf nbuf ⟨some pm, addBytes obuf nbuf pm, false⟩ ms).1 ++
      (doClose nbuf (runTranslate obuf nbuf ⟨some pm, addBytes obuf nbuf pm, false⟩ ms).2).1
      = controlsOf obuf nbuf (pm :: ms) := by
  intro ms
  induction ms with
  | nil =>
      intro pm
      simp [runTranslate, doClose, sendControl, controlsOf,
        List.take_of_length_le (le_of_eq (addBytes_length obuf nbuf pm))]
  | cons m rest ih =>
      intro pm
      show (translateStep obuf nbuf _ m).1 ++ _ ++ _ = _
      simp only [runTranslate, translateStep, sendControl]
      rw [List.append_assoc]
      have hm := ih m
      simp only [runTranslate] at hm ⊢
      rw [hm]
      simp [controlsOf, List.take_of_length_le (le_of_eq (addBytes_length obuf nbuf pm))]

theorem translateAll_eq_controlsOf (obuf nbuf : List Byte) (ms : List Match) :
    translateAll obuf nbuf ms = controlsOf obuf nbuf ms := by
  cases ms with
  | nil => simp [translateAll, runTranslate, doClose, initT, sendControl, controlsOf]
  | cons m rest =>
      show (runTranslate obuf nbuf initT (m :: rest)).1 ++ _ = _
      simp only [runTranslate, translateStep, initT, sendControl]
      simpa using runTranslate_closed obuf nbuf rest m

theorem controlsOf_length (obuf nbuf : List Byte) :
    ∀ ms : List Match, (controlsOf obuf nbuf ms).length = ms.length := by
  intro ms
  induction ms with
  | nil => rfl
  | cons m rest ih =>
      cases rest with
      | nil => rfl
      | cons n rest' => simpa [controlsOf] using ih

theorem controlsOf_last_seek (obuf nbuf : List Byte) :
    ∀ ms : List Match, ∀ c, (controlsOf obuf nbuf ms).getLast? = some c → c.seek = 0 := by
  intro ms
  induction ms with
  | nil => intro c h; simp [controlsOf] at h
  | cons m rest ih =>
      intro c h
      cases rest with
      | nil =>
          simp [controlsOf, List.getLast?] at h
          subst h; rfl
      | cons n rest' =>
          rw [controlsOf] at h
          have hne : controlsOf obuf nbuf (n :: rest') ≠ [] := by
            intro hh
            have hl := controlsOf_length obuf nbuf (n :: rest')
            rw [hh] at hl
            simp at hl
          obtain ⟨d, ds, hds⟩ : ∃ d ds, controlsOf obuf nbuf (n :: rest') = d :: ds := by
            cases hcc : controlsOf obuf nbuf (n :: rest') with
            | nil => exact absurd hcc hne
            | cons d ds => exact ⟨d, ds, rfl⟩
          rw [hds, List.getLast?_cons_cons, ← hds] at h
          exact ih c h

/-! ## The reference index satisfies the contract -/

theorem take_eq_of_take_eq {α : Type} (xs ys : List α) (c l : Nat) (hl : l ≤ c)
    (h : xs.take c = ys.take c) : xs.take l = ys.take l := by
  have h2 := congrArg (List.take l) h
  simpa [List.take_take, Nat.min_eq_left hl] using h2

theorem commonLen_le_left : ∀ xs ys : List Byte, commonLen xs ys ≤ xs.length := by
  intro xs
  induction xs with
  | nil => intro ys; cases ys <;> simp [commonLen]
  | cons x xs ih =>
      intro ys
      cases ys with
      | nil => simp [commonLen]
      | cons y ys =>
          simp only [commonLen, List.length_cons]
          split
          · have := ih ys; omega
          · omega

theorem commonLen_le_right : ∀ xs ys : List Byte, commonLen xs ys ≤ ys.length := by
  intro xs
  induction xs with
  | nil => intro ys; cases ys <;> simp [commonLen]
  | cons x xs ih =>
      intro ys
      cases ys with
      | nil => simp [commonLen]
      | cons y ys =>
          simp only [commonLen, List.length_cons]
          split
          · have := ih ys; omega
          · omega

theorem commonLen_take : ∀ xs ys : List Byte,
    xs.take (commonLen xs ys) = ys.take (commonLen xs ys) := by
  intro xs
  induction xs with
  | nil => intro ys; cases ys <;> simp [commonLen]
  | cons x xs ih =>
      intro ys
      cases ys with
      | nil => simp [commonLen]
      | cons y ys =>
          simp only [commonLen]
          split
          · rename_i h
            simp [List.take_succ_cons, h, ih ys]
          · simp

theorem le_commonLen : ∀ (xs ys : List Byte) (l : Nat), l ≤ xs.length → l ≤ ys.length →
    xs.take l = ys.take l → l ≤ commonLen xs ys := by
  intro xs
  induction xs with
  | nil =>
      intro ys l h _ _
      have : l = 0 := by simpa using h
      omega
  | cons x xs ih =>
      intro ys l hx hy ht
      cases l with
      | zero => omega
      | succ k =>
          cases ys with
          | nil => simp at hy
          | cons y ys =>
              simp only [List.take_succ_cons, List.cons.injEq] at ht
              simp only [commonLen, ht.1, if_pos]
              have := ih ys k (by simpa using hx) (by simpa using hy) ht.2
              omega

theorem naiveLsm_fold_valid (obuf q : List Byte) :
    ∀ (l : List Nat) (init : Nat × Nat),
      (∀ s ∈ l, s ≤ obuf.length) →
      init.1 ≤ obuf.length → init.2 ≤ commonLen (obuf.drop init.1) q →
      (l.foldl (fun best s =>
        if best.2 < commonLen (obuf.drop s) q then (s, commonLen (obuf.drop s) q) else best)
        init).1 ≤ obuf.length ∧
      (l.foldl (fun best s =>
        if best.2 < commonLen (obuf.drop s) q then (s, commonLen (obuf.drop s) q) else best)
        init).2 ≤ commonLen (obuf.drop (l.foldl (fun best s =>
          if best.2 < commonLen (obuf.drop s) q then (s, commonLen (obuf.drop s) q) else best)
          init).1) q := by
  intro l
  induction l with
  | nil => intro init _ h1 h2; exact ⟨h1, h2⟩
  | cons s rest ih =>
      intro init hl h1 h2
      simp only [List.foldl_cons]
      split
      · exact ih _ (fun t ht => hl t (List.mem_cons_of_mem s ht))
          (hl s (List.mem_cons_self s rest)) le_rfl
      · exact ih _ (fun t ht => hl t (List.mem_cons_of_mem s ht)) h1 h2

theorem naiveLsm_fold_max (obuf q : List Byte) :
    ∀ (l : List Nat) (init : Nat × Nat),
      init.2 ≤ (l.foldl (fun best s =>
        if best.2 < commonLen (obuf.drop s) q then (s, commonLen (obuf.drop s) q) else best)
        init).2 ∧
      ∀ s ∈ l, commonLen (obuf.drop s) q ≤ (l.foldl (fun best s =>
        if best.2 < commonLen (obuf.drop s) q then (s, commonLen (obuf.drop s) q) else best)
        init).2 := by
  intro l
  induction l with
  | nil => intro init; exact ⟨le_rfl, by simp⟩
  | cons s rest ih =>
      intro init
      simp only [List.foldl_cons]
      constructor
      · split
        · rename_i h
          exact le_trans (le_of_lt h)
            (ih (s, commonLen (obuf.drop s) q)).1
        · exact (ih init).1
      · intro t ht
        rcases List.mem_cons.mp ht with rfl | ht'
        · split
          · exact (ih (t, commonLen (obuf.drop t) q)).1
          · rename_i h
            exact le_trans (by omega) (ih init).1
        · split
          · exact (ih (s, commonLen (obuf.drop s) q)).2 t ht'
          · exact (ih init).2 t ht'

theorem naiveLsm_spec (obuf : List Byte) : LsmSpec obuf (naiveLsm obuf) := by
  intro q
  have hmem : ∀ s ∈ List.range (obuf.length + 1), s ≤ obuf.length := by
    intro s hs
    have := List.mem_range.mp hs
    omega
  have hv := naiveLsm_fold_valid obuf q (List.range (obuf.length + 1)) (0, 0) hmem
    (by simp) (by simp)
  have hm := naiveLsm_fold_max obuf q (List.range (obuf.length + 1)) (0, 0)
  have hfold : naiveLsm obuf q = (List.range (obuf.length + 1)).foldl
      (fun best s =>
        if best.2 < commonLen (obuf.drop s) q then (s, commonLen (obuf.drop s) q) else best)
      (0, 0) := rfl
  rw [← hfold] at hv hm
  obtain ⟨hv1, hv2⟩ := hv
  have hdl : (obuf.drop (naiveLsm obuf q).1).length = obuf.length - (naiveLsm obuf q).1 := by
    simp
  have hcl1 := commonLen_le_left (obuf.drop (naiveLsm obuf q).1) q
  have hcl2 := commonLen_le_right (obuf.drop (naiveLsm obuf q).1) q
  refine ⟨⟨by omega, by omega, ?_⟩, ?_⟩
  · exact take_eq_of_take_eq _ _ _ _ hv2 (commonLen_take _ _)
  · rintro s l ⟨hsl, hlq, htk⟩
    have hs : s ∈ List.range (obuf.length + 1) := List.mem_range.mpr (by omega)
    have hds : (obuf.drop s).length = obuf.length - s := by simp
    have hcl : l ≤ commonLen (obuf.drop s) q := le_commonLen _ _ l (by omega) hlq htk
    have hms := hm.2 s hs
    omega

/-! ## Claim C4: control contents -/

theorem controlsOf_getElem? (obuf nbuf : List Byte) :
    ∀ (ms : List Match) (i : Nat) (m : Match), ms[i]? = some m →
      (controlsOf obuf nbuf ms)[i]? = some
        { add := addBytes obuf nbuf m,
          copy := slice nbuf m.copy_start m.copy_end,
          seek := match ms[i + 1]? with
            | some n => (n.add_old_start : Int) -
                ((m.add_old_start : Int) + (m.add_length : Int))
            | none => 0 } := by
  intro ms
  induction ms with
  | nil => intro i m h; simp at h
  | cons m0 tail ih =>
      intro i m h
      cases tail with
      | nil =>
          cases i with
          | zero =>
              simp at h
              subst h
              simp [controlsOf]
          | succ j => simp at h
      | cons n rest =>
          cases i with
          | zero =>
              simp at h
              subst h
              simp [controlsOf]
          | succ j =>
              have h' : (n :: rest)[j]? = some m := by simpa using h
              have := ih j m h'
              simpa [controlsOf] using this

/-- C4: feeding a sequence of contiguous matches through `Translator::translate`
followed by `close` emits one `Control` per match, whose `add` is the elementwise
wrapping difference `NEW[add_new_start+i] - OLD[add_old_start+i]`, whose `copy` is
the literal slice `NEW[copy_start..copy_end]`, and whose `seek` is
`next.add_old_start - (prev.add_old_start + prev.add_length)` in signed arithmetic,
except the final control (emitted at close) whose `seek` is 0. -/
theorem C4_control_contents (obuf nbuf : List Byte) (ms : List Match)
    (hchain : List.Chain' (fun a b => b.add_new_start = a.copy_end) ms)
    (hb : ∀ m ∈ ms, MBounds obuf nbuf m) :
    (translateAll obuf nbuf ms).length = ms.length ∧
    ∀ (i : Nat) (m : Match), ms[i]? = some m →
      (translateAll obuf nbuf ms)[i]? = some
        { add := (List.range m.add_length).map (fun j =>
            nbuf.getD (m.add_new_start + j) 0 - obuf.getD (m.add_old_start + j) 0),
          copy := slice nbuf m.copy_start m.copy_end,
          seek := match ms[i + 1]? with
            | some n => (n.add_old_start : Int) -
                ((m.add_old_start : Int) + (m.add_length : Int))
            | none => 0 } := by
  rw [translateAll_eq_controlsOf]
  exact ⟨controlsOf_length obuf nbuf ms, fun i m h => controlsOf_getElem? obuf nbuf ms i m h⟩

/-- Witness for C4 at a concrete input. -/
theorem C4_control_contents_witness :
    (translateAll [5] [7, 9] [⟨0, 0, 1, 2⟩]).length = [(⟨0, 0, 1, 2⟩ : Match)].length ∧
    ∀ (i : Nat) (m : Match), [(⟨0, 0, 1, 2⟩ : Match)][i]? = some m →
      (translateAll [5] [7, 9] [⟨0, 0, 1, 2⟩])[i]? = some
        { add := (List.range m.add_length).map (fun j =>
            ([7, 9] : List Byte).getD (m.add_new_start + j) 0 -
              ([5] : List Byte).getD (m.add_old_start + j) 0),
          copy := slice [7, 9] m.copy_start m.copy_end,
          seek := match [(⟨0, 0, 1, 2⟩ : Match)][i + 1]? with
            | some n => (n.add_old_start : Int) -
                ((m.add_old_start : Int) + (m.add_length : Int))
            | none => 0 } :=
  C4_control_contents [5] [7, 9] [⟨0, 0, 1, 2⟩] (List.chain'_singleton _)
    (by intro m hm; simp at hm; subst hm; refine ⟨by decide, by decide, by decide⟩)

/-! ## Claim C8: parameter validation -/

/-- C8: `DiffParams::new` fails, with a descriptive error, exactly when
`sort_partitions < 1` or `scan_chunk_size = Some(0)`; otherwise it stores the
arguments unchanged. -/
theorem C8_param_validation (sp : Nat) (scs : Option Nat) :
    ((∃ msg, DiffParams.new sp scs = .error msg) ↔ sp < 1 ∨ scs = some 0) ∧
    (∀ p, DiffParams.new sp scs = .ok p →
      p.sort_partitions = sp ∧ p.scan_chunk_size = scs) := by
  by_cases h1 : sp < 1
  · refine ⟨⟨fun _ => .inl h1, fun _ =>
      ⟨"number of sort partitions cannot be less than 1", by simp [DiffParams.new, h1]⟩⟩, ?_⟩
    intro p hp
    simp [DiffParams.new, h1] at hp
  · cases scs with
    | none =>
        refine ⟨⟨?_, ?_⟩, ?_⟩
        · rintro ⟨msg, hmsg⟩
          simp [DiffParams.new, h1, Option.filter] at hmsg
        · rintro (h | h)
          · omega
          · simp at h
        · intro p hp
          simp [DiffParams.new, h1, Option.filter] at hp
          subst hp
          exact ⟨rfl, rfl⟩
    | some v =>
        by_cases hv : v < 1
        · have hv0 : v = 0 := by omega
          subst hv0
          refine ⟨⟨fun _ => .inr rfl, fun _ =>
            ⟨"scan chunk size cannot be less than 1",
              by simp [DiffParams.new, h1, Option.filter]⟩⟩, ?_⟩
          intro p hp
          simp [DiffParams.new, h1, Option.filter] at hp
        · refine ⟨⟨?_, ?_⟩, ?_⟩
          · rintro ⟨msg, hmsg⟩
            simp [DiffParams.new, h1, Option.filter, hv] at hmsg
          · rintro (h | h)
            · omega
            · rw [Option.some.injEq] at h
              omega
          · intro p hp
            simp [DiffParams.new, h1, Option.filter, hv] at hp
            subst hp
            exact ⟨rfl, rfl⟩

/-- Witness for C8 at concrete parameter values. -/
theorem C8_param_validation_witness :
    (((∃ msg, DiffParams.new 2 (some 3) = .error msg) ↔ 2 < 1 ∨ some 3 = some 0) ∧
    (∀ p, DiffParams.new 2 (some 3) = .ok p →
      p.sort_partitions = 2 ∧ p.scan_chunk_size = some 3)) :=
  C8_param_validation 2 (some 3)

/-! ## Claim C9: close idempotence, drop swallows errors -/

theorem doCloseE_emits_nil {E : Type} (sink : Control → Except E Unit) (nbuf : List Byte)
    (st : TState) (h : st.closed = true ∨ st.prev_match = none) :
    (doCloseE sink nbuf st).2.1 = [] := by
  rcases h with h | h
  · simp [doCloseE, h]
  · by_cases hc : st.closed
    · simp [doCloseE, hc]
    · simp [doCloseE, sendControl, hc, h, runSink]

theorem doCloseE_post {E : Type} (sink : Control → Except E Unit) (nbuf : List Byte)
    (st : TState) :
    ((doCloseE sink nbuf st).2.2).closed = true ∨
      ((doCloseE sink nbuf st).2.2).prev_match = none := by
  by_cases hc : st.closed
  · left
    simpa [doCloseE, hc] using hc
  · simp only [doCloseE, hc, Bool.false_eq_true, if_false]
    split
    · left; rfl
    · right
      cases hp : st.prev_match <;> simp [sendControl, hp]

/-- C9: closing a translator more than once emits exactly one terminal control in
total — a close emits at most one control (exactly one when a match is pending),
and any further close (explicit or the implicit one on destruction) emits none.
An explicit `close` surfaces the sink's outcome, while the `Drop` path keeps only
the state, swallowing any sink error. -/
theorem C9_close_idempotent {E : Type} (nbuf : List Byte) (st : TState)
    (sink : Control → Except E Unit) :
    (doClose nbuf (doClose nbuf st).2).1 = [] ∧
    (doClose nbuf st).1.length ≤ 1 ∧
    (st.closed = false → ∀ pm, st.prev_match = some pm → (doClose nbuf st).1.length = 1) ∧
    (doCloseE sink nbuf (doCloseE sink nbuf st).2.2).2.1 = [] ∧
    (st.closed = false → (doCloseE sink nbuf st).1 = runSink sink (sendControl nbuf st none).1) ∧
    dropClose sink nbuf st = (doCloseE sink nbuf st).2.2 := by
  refine ⟨?_, ?_, ?_, ?_, ?_, rfl⟩
  · by_cases hc : st.closed
    · simp [doClose, hc]
    · cases hp : st.prev_match <;> simp [doClose, sendControl, hc, hp]
  · by_cases hc : st.closed
    · simp [doClose, hc]
    · cases hp : st.prev_match <;> simp [doClose, sendControl, hc, hp]
  · intro hc pm hp
    simp [doClose, sendControl, hc, hp]
  · exact doCloseE_emits_nil sink nbuf _ (doCloseE_post sink nbuf st)
  · intro hc
    simp only [doCloseE, hc, Bool.false_eq_true, if_false]
    cases hs : runSink sink (sendControl nbuf st none).1 <;> simp [hs]

/-- Witness for C9: a pending match and an always-failing sink. -/
theorem C9_close_idempotent_witness :
    (doClose [1, 2] (doClose [1, 2] ⟨some ⟨0, 0, 0, 1⟩, [], false⟩).2).1 = [] ∧
    (doClose [1, 2] ⟨some ⟨0, 0, 0, 1⟩, [], false⟩).1.length ≤ 1 ∧
    ((⟨some ⟨0, 0, 0, 1⟩, [], false⟩ : TState).closed = false →
      ∀ pm, (⟨some ⟨0, 0, 0, 1⟩, [], false⟩ : TState).prev_match = some pm →
        (doClose [1, 2] ⟨some ⟨0, 0, 0, 1⟩, [], false⟩).1.length = 1) ∧
    (doCloseE (fun _ => Except.error "sink failed") [1, 2]
      (doCloseE (fun _ => Except.error "sink failed") [1, 2]
        ⟨some ⟨0, 0, 0, 1⟩, [], false⟩).2.2).2.1 = [] ∧
    ((⟨some ⟨0, 0, 0, 1⟩, [], false⟩ : TState).closed = false →
      (doCloseE (fun _ => Except.error "sink failed") [1, 2]
        ⟨some ⟨0, 0, 0, 1⟩, [], false⟩).1 =
      runSink (fun _ => Except.error "sink failed")
        (sendControl [1, 2] ⟨some ⟨0, 0, 0, 1⟩, [], false⟩ none).1) ∧
    dropClose (fun _ => Except.error "sink failed") [1, 2] ⟨some ⟨0, 0, 0, 1⟩, [], false⟩ =
      (doCloseE (fun _ => Except.error "sink failed") [1, 2]
        ⟨some ⟨0, 0, 0, 1⟩, [], false⟩).2.2 :=
  C9_close_idempotent [1, 2] ⟨some ⟨0, 0, 0, 1⟩, [], false⟩ (fun _ => Except.error "sink failed")

/-! ## Scanner: bounds on the extension-scoring folds -/

theorem asUsize_int_le (x : Int) (b : Nat) (h0 : 0 ≤ x) (hb : x ≤ (b : Int))
    (hsmall : b < 2 ^ 64) : asUsize x ≤ b := by
  have hx : x < (2 : Int) ^ 64 := lt_of_le_of_lt hb (by exact_mod_cast hsmall)
  have := asUsize_nonneg_small x h0 hx
  omega

theorem lenf_fold_inv (obuf nbuf : List Byte) (lastpos lastscan : Nat) (bound : Nat) :
    ∀ (l : List Nat) (acc : Int × Int × Int),
      (∀ i ∈ l, (i : Int) + 1 ≤ (bound : Int)) → 0 ≤ acc.2.2 → acc.2.2 ≤ (bound : Int) →
      0 ≤ (l.foldl (lenfStep obuf nbuf lastpos lastscan) acc).2.2 ∧
      (l.foldl (lenfStep obuf nbuf lastpos lastscan) acc).2.2 ≤ (bound : Int) := by
  intro l
  induction l with
  | nil => intro acc _ h0 hb; exact ⟨h0, hb⟩
  | cons i rest ih =>
      intro acc hl h0 hb
      simp only [List.foldl_cons]
      have hi := hl i (List.mem_cons_self i rest)
      have hrest : ∀ j ∈ rest, (j : Int) + 1 ≤ (bound : Int) :=
        fun j hj => hl j (List.mem_cons_of_mem i hj)
      unfold lenfStep
      dsimp only
      split <;> split <;>
        exact ih _ hrest (by dsimp only; omega) (by dsimp only; omega)

theorem lenfInt_bounds (obuf nbuf : List Byte) (lastpos lastscan bound : Nat) :
    0 ≤ lenfInt obuf nbuf lastpos lastscan bound ∧
    lenfInt obuf nbuf lastpos lastscan bound ≤ (bound : Int) := by
  refine lenf_fold_inv obuf nbuf lastpos lastscan bound (List.range bound) (0, 0, 0)
    ?_ le_rfl (by positivity)
  intro i hi
  have := List.mem_range.mp hi
  omega

theorem lenb_fold_inv (obuf nbuf : List Byte) (pos scan : Nat) (bound : Nat) :
    ∀ (l : List Nat) (acc : Int × Int × Int),
      (∀ i ∈ l, (i : Int) ≤ (bound : Int)) → 0 ≤ acc.2.2 → acc.2.2 ≤ (bound : Int) →
      0 ≤ (l.foldl (lenbStep obuf nbuf pos scan) acc).2.2 ∧
      (l.foldl (lenbStep obuf nbuf pos scan) acc).2.2 ≤ (bound : Int) := by
  intro l
  induction l with
  | nil => intro acc _ h0 hb; exact ⟨h0, hb⟩
  | cons i rest ih =>
      intro acc hl h0 hb
      simp only [List.foldl_cons]
      have hi := hl i (List.mem_cons_self i rest)
      have hrest : ∀ j ∈ rest, (j : Int) ≤ (bound : Int) :=
        fun j hj => hl j (List.mem_cons_of_mem i hj)
      unfold lenbStep
      dsimp only
      split <;> split <;>
        exact ih _ hrest (by dsimp only; omega) (by dsimp only; omega)

theorem lenbInt_bounds (obuf nbuf : List Byte) (pos scan bound : Nat) :
    0 ≤ lenbInt obuf nbuf pos scan bound ∧
    lenbInt obuf nbuf pos scan bound ≤ (bound : Int) := by
  refine lenb_fold_inv obuf nbuf pos scan bound (List.range' 1 bound) (0, 0, 0)
    ?_ le_rfl (by positivity)
  intro i hi
  have := List.mem_range'_1.mp hi
  omega

theorem lens_fold_inv (obuf nbuf : List Byte) (lastscan lastpos pos scan lenf lenb overlap : Nat) :
    ∀ (l : List Nat) (acc : Int × Int × Nat),
      (∀ i ∈ l, i + 1 ≤ overlap) → acc.2.2 ≤ overlap →
      (l.foldl (lensStep obuf nbuf lastscan lastpos pos scan lenf lenb overlap) acc).2.2
        ≤ overlap := by
  intro l
  induction l with
  | nil => intro acc _ hb; exact hb
  | cons i rest ih =>
      intro acc hl hb
      simp only [List.foldl_cons]
      have hi := hl i (List.mem_cons_self i rest)
      have hrest : ∀ j ∈ rest, j + 1 ≤ overlap :=
        fun j hj => hl j (List.mem_cons_of_mem i hj)
      unfold lensStep
      dsimp only
      split <;> split <;> split <;>
        exact ih _ hrest (by dsimp only; omega)

theorem lensNat_le (obuf nbuf : List Byte) (lastscan lastpos pos scan lenf lenb overlap : Nat) :
    lensNat obuf nbuf lastscan lastpos pos scan lenf lenb overlap ≤ overlap := by
  refine lens_fold_inv obuf nbuf lastscan lastpos pos scan lenf lenb overlap
    (List.range overlap) (0, 0, 0) ?_ (Nat.zero_le _)
  intro i hi
  have := List.mem_range.mp hi
  omega

/-! ## Scanner: the emission step -/

theorem emitMatch_spec (obuf nbuf : List Byte) (lastscan lastpos scan pos : Nat)
    (h1 : lastscan ≤ scan) (h2 : lastpos ≤ obuf.length) (h3 : pos ≤ obuf.length)
    (h4 : scan ≤ nbuf.length) (hN : nbuf.length < 2 ^ 64) :
    (emitMatch obuf nbuf lastscan lastpos scan pos).1.add_old_start = lastpos ∧
    (emitMatch obuf nbuf lastscan lastpos scan pos).1.add_new_start = lastscan ∧
    (emitMatch obuf nbuf lastscan lastpos scan pos).1.copy_end
      = (emitMatch obuf nbuf lastscan lastpos scan pos).2.1 ∧
    lastscan ≤ (emitMatch obuf nbuf lastscan lastpos scan pos).2.1 ∧
    (emitMatch obuf nbuf lastscan lastpos scan pos).2.1 ≤ scan ∧
    (emitMatch obuf nbuf lastscan lastpos scan pos).2.2 ≤ obuf.length ∧
    MBounds obuf nbuf (emitMatch obuf nbuf lastscan lastpos scan pos).1 ∧
    (scan = nbuf.length → (emitMatch obuf nbuf lastscan lastpos scan pos).2.1 = nbuf.length) := by
  simp only [emitMatch]
  have hfb := lenfInt_bounds obuf nbuf lastpos lastscan
    (min (scan - lastscan) (obuf.length - lastpos))
  have hlenf : asUsize (lenfInt obuf nbuf lastpos lastscan
      (min (scan - lastscan) (obuf.length - lastpos)))
      ≤ min (scan - lastscan) (obuf.length - lastpos) :=
    asUsize_int_le _ _ hfb.1 hfb.2 (by omega)
  set lenf := asUsize (lenfInt obuf nbuf lastpos lastscan
    (min (scan - lastscan) (obuf.length - lastpos))) with hlenfdef
  by_cases hend : nbuf.length ≤ scan
  · -- done scanning: lenb = 0, and the overlap branch cannot trigger
    rw [if_pos hend]
    have hnb : ¬(scan - 0 < lastscan + lenf) := by omega
    rw [if_neg hnb]
    simp only [MBounds, Match.copy_start]
    refine ⟨?_, ?_, ?_, ?_, ?_, ?_, ⟨?_, ?_, ?_⟩, fun he => ?_⟩ <;> first | trivial | omega
  · rw [if_neg hend]
    have hbb := lenbInt_bounds obuf nbuf pos scan (min (scan - lastscan) pos)
    have hlenb : asUsize (lenbInt obuf nbuf pos scan (min (scan - lastscan) pos))
        ≤ min (scan - lastscan) pos :=
      asUsize_int_le _ _ hbb.1 hbb.2 (by omega)
    set lenb := asUsize (lenbInt obuf nbuf pos scan (min (scan - lastscan) pos)) with hlenbdef
    by_cases hov : scan - lenb < lastscan + lenf
    · rw [if_pos hov]
      have hlens := lensNat_le obuf nbuf lastscan lastpos pos scan lenf lenb
        (lastscan + lenf - (scan - lenb))
      set lens := lensNat obuf nbuf lastscan lastpos pos scan lenf lenb
        (lastscan + lenf - (scan - lenb)) with hlensdef
      simp only [MBounds, Match.copy_start]
      refine ⟨?_, ?_, ?_, ?_, ?_, ?_, ⟨?_, ?_, ?_⟩, fun he => ?_⟩ <;> first | trivial | omega
    · rw [if_neg hov]
      simp only [MBounds, Match.copy_start]
      refine ⟨?_, ?_, ?_, ?_, ?_, ?_, ⟨?_, ?_, ?_⟩, fun he => ?_⟩ <;> first | trivial | omega

/-! ## Scanner: inner-loop facts and the outer-loop invariant -/

theorem innerLoop_spec (obuf nbuf : List Byte) (lsm : List Byte → Nat × Nat) (lo : Int)
    (hlsm : LsmSpec obuf lsm) :
    ∀ (fuel scan pos length scsc os : Nat),
      nbuf.length - scan < fuel → pos ≤ obuf.length →
      scan ≤ (innerLoop obuf nbuf lsm lo fuel scan pos length scsc os).scan ∧
      (scan ≤ nbuf.length →
        (innerLoop obuf nbuf lsm lo fuel scan pos length scsc os).scan ≤ nbuf.length) ∧
      (innerLoop obuf nbuf lsm lo fuel scan pos length scsc os).pos ≤ obuf.length ∧
      ((innerLoop obuf nbuf lsm lo fuel scan pos length scsc os).scan < nbuf.length →
        (((innerLoop obuf nbuf lsm lo fuel scan pos length scsc os).length
            = (innerLoop obuf nbuf lsm lo fuel scan pos length scsc os).oldscore ∧
          (innerLoop obuf nbuf lsm lo fuel scan pos length scsc os).length ≠ 0) ∨
          (innerLoop obuf nbuf lsm lo fuel scan pos length scsc os).oldscore + 8
            < (innerLoop obuf nbuf lsm lo fuel scan pos length scsc os).length) ∧
        (innerLoop obuf nbuf lsm lo fuel scan pos length scsc os).scan
          + (innerLoop obuf nbuf lsm lo fuel scan pos length scsc os).length ≤ nbuf.length) := by
  intro fuel
  induction fuel with
  | zero =>
      intro scan pos length scsc os hfuel _
      exact absurd hfuel (by omega)
  | succ fuel ih =>
      intro scan pos length scsc os hfuel hpos
      by_cases hg : scan < nbuf.length
      · obtain ⟨⟨hsl, hlq, _⟩, _⟩ := hlsm (nbuf.drop scan)
        have hqlen : (nbuf.drop scan).length = nbuf.length - scan := by simp
        by_cases hbrk : ((lsm (nbuf.drop scan)).2
              = os + (List.range' scsc (scan + (lsm (nbuf.drop scan)).2 - scsc)).countP
                  (hitAt obuf nbuf lo)
            ∧ (lsm (nbuf.drop scan)).2 ≠ 0)
          ∨ os + (List.range' scsc (scan + (lsm (nbuf.drop scan)).2 - scsc)).countP
              (hitAt obuf nbuf lo) + 8 < (lsm (nbuf.drop scan)).2
        · have hres : innerLoop obuf nbuf lsm lo (fuel + 1) scan pos length scsc os
              = ⟨scan, (lsm (nbuf.drop scan)).1, (lsm (nbuf.drop scan)).2,
                  os + (List.range' scsc (scan + (lsm (nbuf.drop scan)).2 - scsc)).countP
                    (hitAt obuf nbuf lo)⟩ := by
            simp only [innerLoop]
            rw [if_pos hg, if_pos hbrk]
          rw [hres]
          dsimp only
          refine ⟨le_rfl, fun h => by omega, by omega, fun _ => ⟨hbrk, by omega⟩⟩
        · have hres : innerLoop obuf nbuf lsm lo (fuel + 1) scan pos length scsc os
              = innerLoop obuf nbuf lsm lo fuel (scan + 1) (lsm (nbuf.drop scan)).1
                  (lsm (nbuf.drop scan)).2 (max scsc (scan + (lsm (nbuf.drop scan)).2))
                  (if hitAt obuf nbuf lo scan
                    then os + (List.range' scsc (scan + (lsm (nbuf.drop scan)).2 - scsc)).countP
                      (hitAt obuf nbuf lo) - 1
                    else os + (List.range' scsc (scan + (lsm (nbuf.drop scan)).2 - scsc)).countP
                      (hitAt obuf nbuf lo)) := by
            simp only [innerLoop]
            rw [if_pos hg, if_neg hbrk]
          rw [hres]
          have ihx := ih (scan + 1) (lsm (nbuf.drop scan)).1 (lsm (nbuf.drop scan)).2
            (max scsc (scan + (lsm (nbuf.drop scan)).2))
            (if hitAt obuf nbuf lo scan
              then os + (List.range' scsc (scan + (lsm (nbuf.drop scan)).2 - scsc)).countP
                (hitAt obuf nbuf lo) - 1
              else os + (List.range' scsc (scan + (lsm (nbuf.drop scan)).2 - scsc)).countP
                (hitAt obuf nbuf lo))
            (by omega) (by omega)
          exact ⟨by omega, fun _ => ihx.2.1 (by omega), ihx.2.2.1, ihx.2.2.2⟩
      · have hres : innerLoop obuf nbuf lsm lo (fuel + 1) scan pos length scsc os
            = ⟨scan, pos, length, os⟩ := by
          simp only [innerLoop]
          rw [if_neg hg]
        rw [hres]
        dsimp only
        exact ⟨le_rfl, fun h => h, hpos, fun h => absurd h hg⟩

/-- The scanner state invariant maintained across outer-loop iterations. -/
def Inv (obuf nbuf : List Byte) (st : ScanState) : Prop :=
  st.scan ≤ nbuf.length ∧
  (st.scan < nbuf.length → st.scan + st.length ≤ nbuf.length) ∧
  st.lastscan ≤ st.scan ∧
  st.lastpos ≤ obuf.length ∧
  st.pos ≤ obuf.length ∧
  (nbuf.length ≤ st.scan → st.lastscan = nbuf.length)

theorem Inv_init (obuf nbuf : List Byte) : Inv obuf nbuf initScan := by
  unfold Inv initScan
  dsimp only
  refine ⟨?_, ?_, ?_, ?_, ?_, ?_⟩ <;> first | omega | (intro h; omega)

/-- The outer-loop termination measure. -/
def mu (N : Nat) (st : ScanState) : Nat :=
  2 * (N - st.scan) + (if st.length = 0 then 1 else 0)

theorem mu_dec (N : Nat) (st : ScanState) (r : InnerRes)
    (hscan : st.scan < N) (hA : st.scan + st.length ≤ N)
    (ha : st.scan + st.length ≤ r.scan) (hb : r.scan ≤ N)
    (hd : r.scan < N → r.length ≠ 0) :
    2 * (N - r.scan) + (if r.length = 0 then 1 else 0)
      < 2 * (N - st.scan) + (if st.length = 0 then 1 else 0) := by
  by_cases h1 : st.length = 0 <;> by_cases h2 : r.length = 0 <;>
    simp only [h1, h2, if_pos, if_neg] <;> simp <;> omega

/-- Central scanner theorem: under the index contract, from any state satisfying
the invariant and with sufficient fuel, the emitted matches tile
`[lastscan, |NEW|)`, each satisfies the bounds, and the first carries
`add_old_start = lastpos`. -/
theorem outer_spec (obuf nbuf : List Byte) (lsm : List Byte → Nat × Nat)
    (hlsm : LsmSpec obuf lsm) (hN : nbuf.length < 2 ^ 64) :
    ∀ (fuel : Nat) (st : ScanState), Inv obuf nbuf st →
      mu nbuf.length st ≤ fuel →
      Tiles st.lastscan nbuf.length (outerLoop obuf nbuf lsm fuel st) ∧
      (∀ m ∈ outerLoop obuf nbuf lsm fuel st, MBounds obuf nbuf m) ∧
      (∀ h : outerLoop obuf nbuf lsm fuel st ≠ [],
        ((outerLoop obuf nbuf lsm fuel st).head h).add_old_start = st.lastpos) := by
  intro fuel
  induction fuel with
  | zero =>
      intro st hinv hmu
      obtain ⟨hs1, hs2, hs3, hs4, hs5, hs6⟩ := hinv
      have hend : nbuf.length ≤ st.scan := by
        unfold mu at hmu
        by_cases h : st.length = 0
        · rw [if_pos h] at hmu; omega
        · rw [if_neg h] at hmu; omega
      refine ⟨?_, ?_, ?_⟩
      · show st.lastscan = nbuf.length
        exact hs6 hend
      · intro m hm
        simp [outerLoop] at hm
      · intro h
        exact absurd rfl h
  | succ fuel ih =>
      intro st hinv hmu
      obtain ⟨hs1, hs2, hs3, hs4, hs5, hs6⟩ := hinv
      by_cases hg : st.scan < nbuf.length
      · set r := innerLoop obuf nbuf lsm st.lastoffset (nbuf.length + 1)
          (st.scan + st.length) st.pos st.length (st.scan + st.length) 0 with hrdef
        have hin := innerLoop_spec obuf nbuf lsm st.lastoffset hlsm (nbuf.length + 1)
          (st.scan + st.length) st.pos st.length (st.scan + st.length) 0 (by omega) hs5
        rw [← hrdef] at hin
        obtain ⟨hi1, hi2, hi3, hi4⟩ := hin
        have hA : st.scan + st.length ≤ nbuf.length := hs2 hg
        have hrN : r.scan ≤ nbuf.length := hi2 hA
        have hd : r.scan < nbuf.length → r.length ≠ 0 := by
          intro h
          rcases (hi4 h).1 with ⟨_, hne⟩ | hlt <;> omega
        have hmd := mu_dec nbuf.length st r hg hA hi1 hrN hd
        by_cases hcond : r.length ≠ r.oldscore ∨ r.scan = nbuf.length
        · -- an emission happens
          set e := emitMatch obuf nbuf st.lastscan st.lastpos r.scan r.pos with hedef
          have hes := emitMatch_spec obuf nbuf st.lastscan st.lastpos r.scan r.pos
            (by omega) hs4 hi3 hrN hN
          rw [← hedef] at hes
          obtain ⟨he1, he2, he3, he4, he5, he6, he7, he8⟩ := hes
          have hres : outerLoop obuf nbuf lsm (fuel + 1) st
              = e.1 :: outerLoop obuf nbuf lsm fuel
                  ⟨r.scan, r.pos, r.length, e.2.1, e.2.2, (r.pos : Int) - (r.scan : Int)⟩ := by
            simp only [outerLoop]
            rw [if_pos hg, ← hrdef, if_pos hcond, ← hedef]
          have hinv' : Inv obuf nbuf ⟨r.scan, r.pos, r.length, e.2.1, e.2.2,
              (r.pos : Int) - (r.scan : Int)⟩ := by
            unfold Inv
            dsimp only
            exact ⟨hrN, fun h => (hi4 h).2, he5, he6, hi3, fun h => he8 (by omega)⟩
          have hmu' : mu nbuf.length ⟨r.scan, r.pos, r.length, e.2.1, e.2.2,
              (r.pos : Int) - (r.scan : Int)⟩ ≤ fuel := by
            unfold mu at hmu ⊢
            dsimp only
            omega
          have IH := ih _ hinv' hmu'
          rw [hres]
          refine ⟨?_, ?_, ?_⟩
          · show e.1.add_new_start = st.lastscan ∧
              Tiles e.1.copy_end nbuf.length (outerLoop obuf nbuf lsm fuel
                ⟨r.scan, r.pos, r.length, e.2.1, e.2.2, (r.pos : Int) - (r.scan : Int)⟩)
            refine ⟨he2, ?_⟩
            rw [he3]
            exact IH.1
          · intro m hm
            rcases List.mem_cons.mp hm with rfl | hm'
            · exact he7
            · exact IH.2.1 m hm'
          · intro h
            show e.1.add_old_start = st.lastpos
            exact he1
        · -- the inner loop broke without an interesting score: keep scanning
          have hcond2 : r.length = r.oldscore ∧ r.scan ≠ nbuf.length := by
            push_neg at hcond
            exact hcond
          have hrlt : r.scan < nbuf.length := by
            rcases hcond2 with ⟨_, hne⟩
            omega
          have hres : outerLoop obuf nbuf lsm (fuel + 1) st
              = outerLoop obuf nbuf lsm fuel
                  ⟨r.scan, r.pos, r.length, st.lastscan, st.lastpos, st.lastoffset⟩ := by
            simp only [outerLoop]
            rw [if_pos hg, ← hrdef, if_neg hcond]
          have hinv' : Inv obuf nbuf ⟨r.scan, r.pos, r.length, st.lastscan, st.lastpos,
              st.lastoffset⟩ := by
            unfold Inv
            dsimp only
            exact ⟨hrN, fun h => (hi4 h).2, by omega, hs4, hi3, fun h => by omega⟩
          have hmu' : mu nbuf.length ⟨r.scan, r.pos, r.length, st.lastscan, st.lastpos,
              st.lastoffset⟩ ≤ fuel := by
            unfold mu at hmu ⊢
            dsimp only
            omega
          have IH := ih _ hinv' hmu'
          rw [hres]
          exact IH
      · have hres : outerLoop obuf nbuf lsm (fuel + 1) st = [] := by
          simp only [outerLoop]
          rw [if_neg hg]
        rw [hres]
        refine ⟨?_, ?_, ?_⟩
        · show st.lastscan = nbuf.length
          exact hs6 (by omega)
        · intro m hm
          simp at hm
        · intro h
          exact absurd rfl h

theorem bsdiff_spec (obuf nbuf : List Byte) (lsm : List Byte → Nat × Nat)
    (hlsm : LsmSpec obuf lsm) (hN : nbuf.length < 2 ^ 64) :
    Tiles 0 nbuf.length (bsdiffMatches obuf nbuf lsm) ∧
    (∀ m ∈ bsdiffMatches obuf nbuf lsm, MBounds obuf nbuf m) ∧
    (∀ h : bsdiffMatches obuf nbuf lsm ≠ [],
      ((bsdiffMatches obuf nbuf lsm).head h).add_old_start = 0) := by
  have hmu : mu nbuf.length initScan ≤ 2 * nbuf.length + 2 := by
    unfold mu initScan
    dsimp only
    split <;> omega
  have h := outer_spec obuf nbuf lsm hlsm hN (2 * nbuf.length + 2) initScan
    (Inv_init _ _) hmu
  exact h

/-! ## Consequences of tiling -/

theorem tiles_chain (a b : Nat) : ∀ ms : List Match, Tiles a b ms →
    List.Chain' (fun x y => y.add_new_start = x.copy_end) ms := by
  intro ms
  induction ms generalizing a with
  | nil => intro _; exact List.chain'_nil
  | cons m rest ih =>
      intro ht
      obtain ⟨h1, h2⟩ := ht
      cases rest with
      | nil => exact List.chain'_singleton m
      | cons n rest' =>
          obtain ⟨h3, h4⟩ := h2
          exact List.Chain'.cons h3 (ih m.copy_end ⟨h3, h4⟩)

theorem tiles_last (b : Nat) : ∀ (ms : List Match) (a : Nat), Tiles a b ms →
    ∀ c, ms.getLast? = some c → c.copy_end = b := by
  intro ms
  induction ms with
  | nil => intro a _ c hc; simp at hc
  | cons m rest ih =>
      intro a ht c hc
      obtain ⟨h1, h2⟩ := ht
      cases rest with
      | nil =>
          simp [List.getLast?] at hc
          subst hc
          exact h2
      | cons n rest' =>
          rw [List.getLast?_cons_cons] at hc
          exact ih m.copy_end h2 c hc

theorem tiles_mono_le (b : Nat) : ∀ (ms : List Match) (a : Nat), Tiles a b ms →
    (∀ m ∈ ms, m.add_new_start ≤ m.copy_end) → a ≤ b := by
  intro ms
  induction ms with
  | nil =>
      intro a ht _
      exact le_of_eq ht
  | cons m rest ih =>
      intro a ht hmono
      obtain ⟨h1, h2⟩ := ht
      have h3 := hmono m (List.mem_cons_self m rest)
      have h4 := ih m.copy_end h2 (fun x hx => hmono x (List.mem_cons_of_mem m hx))
      omega

theorem tiles_coverage (b : Nat) : ∀ (ms : List Match) (a : Nat), Tiles a b ms →
    (∀ m ∈ ms, m.add_new_start ≤ m.copy_end) →
    ∀ j, (a ≤ j ∧ j < b) ↔ ∃ m ∈ ms, m.add_new_start ≤ j ∧ j < m.copy_end := by
  intro ms
  induction ms with
  | nil =>
      intro a ht _ j
      have : a = b := ht
      constructor
      · intro h; omega
      · rintro ⟨m, hm, _⟩; simp at hm
  | cons m rest ih =>
      intro a ht hmono j
      obtain ⟨h1, h2⟩ := ht
      have hmr : ∀ x ∈ rest, x.add_new_start ≤ x.copy_end :=
        fun x hx => hmono x (List.mem_cons_of_mem m hx)
      have hmm := hmono m (List.mem_cons_self m rest)
      have hceb := tiles_mono_le b rest m.copy_end h2 hmr
      have ihj := ih m.copy_end h2 hmr j
      constructor
      · rintro ⟨haj, hjb⟩
        by_cases hj : j < m.copy_end
        · exact ⟨m, List.mem_cons_self m rest, by omega, hj⟩
        · obtain ⟨x, hx, hxj⟩ := ihj.mp ⟨by omega, hjb⟩
          exact ⟨x, List.mem_cons_of_mem m hx, hxj⟩
      · rintro ⟨x, hx, hxj⟩
        rcases List.mem_cons.mp hx with rfl | hx'
        · omega
        · have := ihj.mpr ⟨x, hx', hxj⟩
          omega

theorem tiles_ans_ge (b : Nat) : ∀ (ms : List Match) (a : Nat), Tiles a b ms →
    (∀ m ∈ ms, m.add_new_start ≤ m.copy_end) →
    ∀ x ∈ ms, a ≤ x.add_new_start := by
  intro ms
  induction ms with
  | nil => intro a _ _ x hx; simp at hx
  | cons m rest ih =>
      intro a ht hmono x hx
      obtain ⟨h1, h2⟩ := ht
      rcases List.mem_cons.mp hx with rfl | hx'
      · omega
      · have hmm := hmono m (List.mem_cons_self m rest)
        have := ih m.copy_end h2 (fun y hy => hmono y (List.mem_cons_of_mem m hy)) x hx'
        omega

theorem tiles_pairwise (b : Nat) : ∀ (ms : List Match) (a : Nat), Tiles a b ms →
    (∀ m ∈ ms, m.add_new_start ≤ m.copy_end) →
    ms.Pairwise (fun x y => x.copy_end ≤ y.add_new_start) := by
  intro ms
  induction ms with
  | nil => intro a _ _; exact List.Pairwise.nil
  | cons m rest ih =>
      intro a ht hmono
      obtain ⟨h1, h2⟩ := ht
      have hmr : ∀ x ∈ rest, x.add_new_start ≤ x.copy_end :=
        fun x hx => hmono x (List.mem_cons_of_mem m hx)
      refine List.Pairwise.cons ?_ (ih m.copy_end h2 hmr)
      intro y hy
      exact tiles_ans_ge b rest m.copy_end h2 hmr y hy

/-! ## Claims C2 and C3: coverage, contiguity, bounds -/

/-- C2: the matches of one scan tile NEW exactly — the first starts at 0, each
starts where the previous ended, the last ends at `|NEW|`, and the half-open spans
`[add_new_start, copy_end)` cover `[0, |NEW|)` with no gaps or overlaps. -/
theorem C2_coverage_contiguity (obuf nbuf : List Byte) (lsm : List Byte → Nat × Nat)
    (hlsm : LsmSpec obuf lsm) (hN : nbuf.length < 2 ^ 64) :
    (nbuf.length = 0 → bsdiffMatches obuf nbuf lsm = []) ∧
    (nbuf.length ≠ 0 → bsdiffMatches obuf nbuf lsm ≠ []) ∧
    (∀ h : bsdiffMatches obuf nbuf lsm ≠ [],
      ((bsdiffMatches obuf nbuf lsm).head h).add_new_start = 0) ∧
    List.Chain' (fun x y => y.add_new_start = x.copy_end) (bsdiffMatches obuf nbuf lsm) ∧
    (∀ c, (bsdiffMatches obuf nbuf lsm).getLast? = some c → c.copy_end = nbuf.length) ∧
    (∀ j, j < nbuf.length ↔
      ∃ m ∈ bsdiffMatches obuf nbuf lsm, m.add_new_start ≤ j ∧ j < m.copy_end) ∧
    (bsdiffMatches obuf nbuf lsm).Pairwise (fun x y => x.copy_end ≤ y.add_new_start) := by
  obtain ⟨ht, hb, _⟩ := bsdiff_spec obuf nbuf lsm hlsm hN
  have hmono : ∀ m ∈ bsdiffMatches obuf nbuf lsm, m.add_new_start ≤ m.copy_end := by
    intro m hm
    have := (hb m hm).2.1
    unfold Match.copy_start at this
    omega
  refine ⟨?_, ?_, ?_, tiles_chain _ _ _ ht, tiles_last _ _ _ ht, ?_, tiles_pairwise _ _ _ ht hmono⟩
  · intro h0
    have hnil : nbuf = [] := List.length_eq_zero.mp h0
    subst hnil
    rfl
  · intro hne hnil
    rw [hnil] at ht
    have : (0 : Nat) = nbuf.length := ht
    omega
  · intro h
    obtain ⟨m, rest, hms⟩ := List.exists_cons_of_ne_nil h
    have h1 : (bsdiffMatches obuf nbuf lsm).head? =
        some ((bsdiffMatches obuf nbuf lsm).head h) := List.head?_eq_head h
    have h2 : (bsdiffMatches obuf nbuf lsm).head? = some m := by rw [hms]; rfl
    have hh : (bsdiffMatches obuf nbuf lsm).head h = m :=
      Option.some.inj (h1.symm.trans h2)
    rw [hh]
    rw [hms] at ht
    obtain ⟨ha, _⟩ := ht
    exact ha
  · intro j
    have := tiles_coverage nbuf.length (bsdiffMatches obuf nbuf lsm) 0 ht hmono j
    constructor
    · intro hj
      exact this.mp ⟨Nat.zero_le j, hj⟩
    · intro hj
      exact (this.mpr hj).2

/-- Witness for C2 on concrete buffers, using the reference index. -/
theorem C2_coverage_contiguity_witness :
    (([9, 5, 6] : List Byte).length = 0 → bsdiffMatches [5, 6] [9, 5, 6] (naiveLsm [5, 6]) = []) ∧
    (([9, 5, 6] : List Byte).length ≠ 0 → bsdiffMatches [5, 6] [9, 5, 6] (naiveLsm [5, 6]) ≠ []) ∧
    (∀ h : bsdiffMatches [5, 6] [9, 5, 6] (naiveLsm [5, 6]) ≠ [],
      ((bsdiffMatches [5, 6] [9, 5, 6] (naiveLsm [5, 6])).head h).add_new_start = 0) ∧
    List.Chain' (fun x y => y.add_new_start = x.copy_end)
      (bsdiffMatches [5, 6] [9, 5, 6] (naiveLsm [5, 6])) ∧
    (∀ c, (bsdiffMatches [5, 6] [9, 5, 6] (naiveLsm [5, 6])).getLast? = some c →
      c.copy_end = ([9, 5, 6] : List Byte).length) ∧
    (∀ j, j < ([9, 5, 6] : List Byte).length ↔
      ∃ m ∈ bsdiffMatches [5, 6] [9, 5, 6] (naiveLsm [5, 6]),
        m.add_new_start ≤ j ∧ j < m.copy_end) ∧
    (bsdiffMatches [5, 6] [9, 5, 6] (naiveLsm [5, 6])).Pairwise
      (fun x y => x.copy_end ≤ y.add_new_start) :=
  C2_coverage_contiguity [5, 6] [9, 5, 6] (naiveLsm [5, 6]) (naiveLsm_spec [5, 6]) (by decide)

/-- C3: every match emitted by the scanner satisfies the bounds
`add_old_start + add_length ≤ |OLD|`, `copy_end ≤ |NEW|`, and
`add_new_start + add_length ≤ copy_end`. -/
theorem C3_bounds (obuf nbuf : List Byte) (lsm : List Byte → Nat × Nat)
    (hlsm : LsmSpec obuf lsm) (hN : nbuf.length < 2 ^ 64) :
    ∀ m ∈ bsdiffMatches obuf nbuf lsm,
      m.add_old_start + m.add_length ≤ obuf.length ∧
      m.copy_end ≤ nbuf.length ∧
      m.add_new_start + m.add_length ≤ m.copy_end := by
  obtain ⟨_, hb, _⟩ := bsdiff_spec obuf nbuf lsm hlsm hN
  intro m hm
  obtain ⟨h1, h2, h3⟩ := hb m hm
  unfold Match.copy_start at h2
  exact ⟨h1, h3, h2⟩

/-- Witness for C3 on concrete buffers, at the concrete emitted match. -/
theorem C3_bounds_witness :
    Match.mk 0 0 0 4 ∈ bsdiffMatches [5, 6] [9, 5, 6, 7] (naiveLsm [5, 6]) ∧
    ((Match.mk 0 0 0 4).add_old_start + (Match.mk 0 0 0 4).add_length
        ≤ ([5, 6] : List Byte).length ∧
      (Match.mk 0 0 0 4).copy_end ≤ ([9, 5, 6, 7] : List Byte).length ∧
      (Match.mk 0 0 0 4).add_new_start + (Match.mk 0 0 0 4).add_length
        ≤ (Match.mk 0 0 0 4).copy_end) :=
  ⟨by decide,
    C3_bounds [5, 6] [9, 5, 6, 7] (naiveLsm [5, 6]) (naiveLsm_spec [5, 6]) (by decide)
      (Match.mk 0 0 0 4) (by decide)⟩

/-! ## Chunked mode: arithmetic and stitching -/

theorem tiles_append : ∀ (xs : List Match) (a b c : Nat) (ys : List Match),
    Tiles a b xs → Tiles b c ys → Tiles a c (xs ++ ys) := by
  intro xs
  induction xs with
  | nil =>
      intro a b c ys hx hy
      have : a = b := hx
      subst this
      exact hy
  | cons m rest ih =>
      intro a b c ys hx hy
      obtain ⟨h1, h2⟩ := hx
      exact ⟨h1, ih m.copy_end b c ys h2 hy⟩

theorem offsetMatch_tiles (off : Nat) : ∀ (ms : List Match) (a b : Nat), Tiles a b ms →
    Tiles (a + off) (b + off) (ms.map (offsetMatch off)) := by
  intro ms
  induction ms with
  | nil =>
      intro a b ht
      have : a = b := ht
      subst this
      rfl
  | cons m rest ih =>
      intro a b ht
      obtain ⟨h1, h2⟩ := ht
      refine ⟨?_, ?_⟩
      · show m.add_new_start + off = a + off
        omega
      · show Tiles (m.copy_end + off) (b + off) (rest.map (offsetMatch off))
        exact ih m.copy_end b h2

theorem offsetMatch_zero (m : Match) : offsetMatch 0 m = m := by
  cases m
  simp [offsetMatch]

theorem numChunks_bounds (n s : Nat) (hs : 1 ≤ s) :
    n ≤ numChunks n s * s ∧ numChunks n s * s < n + s := by
  have hd := Nat.div_add_mod (n + s - 1) s
  have hm : (n + s - 1) % s < s := Nat.mod_lt _ (by omega)
  have hq : numChunks n s * s = s * ((n + s - 1) / s) := by
    unfold numChunks
    exact Nat.mul_comm _ _
  obtain ⟨X, hX⟩ : ∃ X, s * ((n + s - 1) / s) = X := ⟨_, rfl⟩
  rw [hX] at hd
  rw [hq, hX]
  omega

theorem chunk_start_bound (n s i : Nat) (hi : i < numChunks n s) :
    i * s + s ≤ numChunks n s * s := by
  have h1 : i + 1 ≤ numChunks n s := hi
  have h2 : (i + 1) * s ≤ numChunks n s * s := Nat.mul_le_mul_right s h1
  have he : (i + 1) * s = i * s + s := by ring
  omega

theorem chunk_facts (nbuf : List Byte) (s i : Nat) (hs : 1 ≤ s)
    (hi : i < numChunks nbuf.length s) :
    i * s < nbuf.length ∧
    1 ≤ (chunk nbuf s i).length ∧
    i * s + (chunk nbuf s i).length
      = (if i + 1 < numChunks nbuf.length s then i * s + s else nbuf.length) ∧
    i * s + (chunk nbuf s i).length ≤ nbuf.length := by
  have hb := numChunks_bounds nbuf.length s hs
  have hc1 := chunk_start_bound nbuf.length s i hi
  have hlen : (chunk nbuf s i).length = min s (nbuf.length - i * s) := by
    simp [chunk]
  by_cases h2 : i + 1 < numChunks nbuf.length s
  · have hc2 := chunk_start_bound nbuf.length s (i + 1) h2
    have he : (i + 1) * s = i * s + s := by ring
    rw [if_pos h2]
    omega
  · have hk : numChunks nbuf.length s ≤ i + 1 := by omega
    have hc3 : numChunks nbuf.length s * s ≤ (i + 1) * s := Nat.mul_le_mul_right s hk
    have he : (i + 1) * s = i * s + s := by ring
    rw [if_neg h2]
    omega

/-- One chunk's forwarded match list: scan the chunk fresh, then add the offset. -/
def chunkList (obuf nbuf : List Byte) (lsm : List Byte → Nat × Nat) (s i : Nat) :
    List Match :=
  (bsdiffMatches obuf (chunk nbuf s i) lsm).map (offsetMatch (i * s))

theorem chunkList_spec (obuf nbuf : List Byte) (lsm : List Byte → Nat × Nat)
    (hlsm : LsmSpec obuf lsm) (hN : nbuf.length < 2 ^ 64) (s i : Nat) (hs : 1 ≤ s)
    (hi : i < numChunks nbuf.length s) :
    Tiles (i * s) (i * s + (chunk nbuf s i).length) (chunkList obuf nbuf lsm s i) ∧
    (∀ m ∈ chunkList obuf nbuf lsm s i, MBounds obuf nbuf m) ∧
    chunkList obuf nbuf lsm s i ≠ [] ∧
    (∀ h : chunkList obuf nbuf lsm s i ≠ [],
      ((chunkList obuf nbuf lsm s i).head h).add_old_start = 0 ∧
      ((chunkList obuf nbuf lsm s i).head h).add_new_start = i * s) := by
  obtain ⟨hcf1, hcf2, hcf3, hcf4⟩ := chunk_facts nbuf s i hs hi
  have hcN : (chunk nbuf s i).length < 2 ^ 64 := by omega
  obtain ⟨ht, hb, hh⟩ := bsdiff_spec obuf (chunk nbuf s i) lsm hlsm hcN
  have htile : Tiles (i * s) (i * s + (chunk nbuf s i).length)
      (chunkList obuf nbuf lsm s i) := by
    have := offsetMatch_tiles (i * s) (bsdiffMatches obuf (chunk nbuf s i) lsm)
      0 (chunk nbuf s i).length ht
    unfold chunkList
    rw [show i * s + (chunk nbuf s i).length = (chunk nbuf s i).length + i * s by omega]
    simpa using this
  have hne : chunkList obuf nbuf lsm s i ≠ [] := by
    intro hnil
    have h0 : bsdiffMatches obuf (chunk nbuf s i) lsm = [] := by
      unfold chunkList at hnil
      exact List.map_eq_nil_iff.mp hnil
    rw [h0] at ht
    have : (0 : Nat) = (chunk nbuf s i).length := ht
    omega
  refine ⟨htile, ?_, hne, ?_⟩
  · intro m hm
    unfold chunkList at hm
    obtain ⟨m0, hm0, rfl⟩ := List.mem_map.mp hm
    obtain ⟨hb1, hb2, hb3⟩ := hb m0 hm0
    unfold Match.copy_start at hb2
    refine ⟨by simpa [offsetMatch] using hb1, ?_, ?_⟩
    · show (offsetMatch (i * s) m0).copy_start ≤ (offsetMatch (i * s) m0).copy_end
      unfold Match.copy_start offsetMatch
      dsimp only
      omega
    · show (offsetMatch (i * s) m0).copy_end ≤ nbuf.length
      unfold offsetMatch
      dsimp only
      omega
  · intro h
    have hb0 : bsdiffMatches obuf (chunk nbuf s i) lsm ≠ [] := by
      intro h0
      rw [h0] at ht
      have : (0 : Nat) = (chunk nbuf s i).length := ht
      omega
    obtain ⟨m0, rest0, hms⟩ := List.exists_cons_of_ne_nil hb0
    have ha := hh hb0
    have hh1 : (bsdiffMatches obuf (chunk nbuf s i) lsm).head hb0 = m0 := by
      have e1 : (bsdiffMatches obuf (chunk nbuf s i) lsm).head? = some m0 := by
        rw [hms]; rfl
      have e2 := List.head?_eq_head hb0
      exact Option.some.inj (e2.symm.trans e1)
    have hh2 : (chunkList obuf nbuf lsm s i).head h = offsetMatch (i * s) m0 := by
      have e1 : (chunkList obuf nbuf lsm s i).head? = some (offsetMatch (i * s) m0) := by
        unfold chunkList
        rw [hms]
        rfl
      have e2 := List.head?_eq_head h
      exact Option.some.inj (e2.symm.trans e1)
    rw [hh1] at ha
    rw [hms] at ht
    obtain ⟨hans, _⟩ := ht
    rw [hh2]
    unfold offsetMatch
    dsimp only
    constructor
    · omega
    · omega

theorem chunked_suffix (obuf nbuf : List Byte) (lsm : List Byte → Nat × Nat)
    (hlsm : LsmSpec obuf lsm) (hN : nbuf.length < 2 ^ 64) (s : Nat) (hs : 1 ≤ s) :
    ∀ (d j : Nat), j + d = numChunks nbuf.length s →
      Tiles (min (j * s) nbuf.length) nbuf.length
        ((List.range' j d).flatMap (chunkList obuf nbuf lsm s)) ∧
      (∀ m ∈ (List.range' j d).flatMap (chunkList obuf nbuf lsm s), MBounds obuf nbuf m) := by
  intro d
  induction d with
  | zero =>
      intro j hj
      have hb := numChunks_bounds nbuf.length s hs
      rw [Nat.add_zero] at hj
      rw [← hj] at hb
      constructor
      · show min (j * s) nbuf.length = nbuf.length
        omega
      · intro m hm
        simp at hm
  | succ d ihd =>
      intro j hj
      have hjk : j < numChunks nbuf.length s := by omega
      obtain ⟨hcf1, hcf2, hcf3, hcf4⟩ := chunk_facts nbuf s j hs hjk
      obtain ⟨hct, hcb, _, _⟩ := chunkList_spec obuf nbuf lsm hlsm hN s j hs hjk
      have hrange : List.range' j (d + 1) = j :: List.range' (j + 1) d := by
        rw [List.range'_succ]
      have hflat : (List.range' j (d + 1)).flatMap (chunkList obuf nbuf lsm s)
          = chunkList obuf nbuf lsm s j
            ++ (List.range' (j + 1) d).flatMap (chunkList obuf nbuf lsm s) := by
        rw [hrange, List.flatMap_cons]
      obtain ⟨iht, ihb⟩ := ihd (j + 1) (by omega)
      have hmin0 : min (j * s) nbuf.length = j * s := by omega
      have hmin1 : min ((j + 1) * s) nbuf.length = j * s + (chunk nbuf s j).length := by
        have he : (j + 1) * s = j * s + s := by ring
        by_cases h2 : j + 1 < numChunks nbuf.length s
        · obtain ⟨hg1, _, _, _⟩ := chunk_facts nbuf s (j + 1) hs h2
          rw [if_pos h2] at hcf3
          omega
        · rw [if_neg h2] at hcf3
          have hk : numChunks nbuf.length s ≤ j + 1 := by omega
          have hc3 : numChunks nbuf.length s * s ≤ (j + 1) * s := Nat.mul_le_mul_right s hk
          have hb := numChunks_bounds nbuf.length s hs
          omega
      rw [hflat, hmin0]
      constructor
      · refine tiles_append _ _ (j * s + (chunk nbuf s j).length) _ _ hct ?_
        rw [← hmin1]
        exact iht
      · intro m hm
        rcases List.mem_append.mp hm with hm' | hm'
        · exact hcb m hm'
        · exact ihb m hm'

/-! ## Claim C5: chunked-mode stitching -/

/-- C5: with `scan_chunk_size = Some s` (`s ≥ 1`), `diff` splits NEW into
`ceil(|NEW| / s)` consecutive chunks, scans each with a fresh zero-initialised
scanner over the same index of the full OLD, and forwards the matches in chunk
order (within a chunk, in emission order) after adding `chunk_index * s` to
`add_new_start` and `copy_end` only; the forwarded stream still tiles
`[0, |NEW|)`, so consecutive matches satisfy `next.add_new_start = prev.copy_end`. -/
theorem C5_chunked_stitching (obuf nbuf : List Byte) (lsm : List Byte → Nat × Nat)
    (hlsm : LsmSpec obuf lsm) (hN : nbuf.length < 2 ^ 64) (s : Nat) (hs : 1 ≤ s) :
    chunkedMatches obuf nbuf lsm s
      = (List.range (numChunks nbuf.length s)).flatMap
          (fun i => (bsdiffMatches obuf (chunk nbuf s i) lsm).map (offsetMatch (i * s))) ∧
    Tiles 0 nbuf.length (chunkedMatches obuf nbuf lsm s) ∧
    List.Chain' (fun x y => y.add_new_start = x.copy_end) (chunkedMatches obuf nbuf lsm s) ∧
    (∀ m ∈ chunkedMatches obuf nbuf lsm s, MBounds obuf nbuf m) := by
  have hsame : chunkedMatches obuf nbuf lsm s
      = (List.range' 0 (numChunks nbuf.length s)).flatMap (chunkList obuf nbuf lsm s) := by
    unfold chunkedMatches chunkList
    rw [List.range_eq_range']
  obtain ⟨ht, hb⟩ := chunked_suffix obuf nbuf lsm hlsm hN s hs (numChunks nbuf.length s) 0 (Nat.zero_add _)
  rw [← hsame] at ht hb
  have hmin : min (0 * s) nbuf.length = 0 := by omega
  rw [hmin] at ht
  exact ⟨rfl, ht, tiles_chain _ _ _ ht, hb⟩

/-- Witness for C5 on concrete buffers with chunk size 2. -/
theorem C5_chunked_stitching_witness :
    chunkedMatches [5, 6, 7] [5, 6, 9, 7] (naiveLsm [5, 6, 7]) 2
      = (List.range (numChunks ([5, 6, 9, 7] : List Byte).length 2)).flatMap
          (fun i => (bsdiffMatches [5, 6, 7] (chunk [5, 6, 9, 7] 2 i)
            (naiveLsm [5, 6, 7])).map (offsetMatch (i * 2))) ∧
    Tiles 0 ([5, 6, 9, 7] : List Byte).length
      (chunkedMatches [5, 6, 7] [5, 6, 9, 7] (naiveLsm [5, 6, 7]) 2) ∧
    List.Chain' (fun x y => y.add_new_start = x.copy_end)
      (chunkedMatches [5, 6, 7] [5, 6, 9, 7] (naiveLsm [5, 6, 7]) 2) ∧
    (∀ m ∈ chunkedMatches [5, 6, 7] [5, 6, 9, 7] (naiveLsm [5, 6, 7]) 2,
      MBounds [5, 6, 7] [5, 6, 9, 7] m) :=
  C5_chunked_stitching [5, 6, 7] [5, 6, 9, 7] (naiveLsm [5, 6, 7])
    (naiveLsm_spec [5, 6, 7]) (by decide) 2 (by decide)

/-! ## Claim C10: single-chunk equivalence -/

/-- C10: when the chunk size covers all of NEW (`s ≥ |NEW|`, `s ≥ 1`), chunked mode
produces exactly the same match sequence as unchunked mode (the single chunk has
offset 0), hence identical control streams. -/
theorem C10_single_chunk_equiv (obuf nbuf : List Byte) (lsm : List Byte → Nat × Nat)
    (s : Nat) (hs : 1 ≤ s) (hns : nbuf.length ≤ s) :
    chunkedMatches obuf nbuf lsm s = bsdiffMatches obuf nbuf lsm ∧
    translateAll obuf nbuf (chunkedMatches obuf nbuf lsm s)
      = translateAll obuf nbuf (bsdiffMatches obuf nbuf lsm) := by
  have hmain : chunkedMatches obuf nbuf lsm s = bsdiffMatches obuf nbuf lsm := by
    by_cases hn : nbuf.length = 0
    · have hnil : nbuf = [] := List.length_eq_zero.mp hn
      subst hnil
      have h1 : numChunks 0 s = 0 := Nat.div_eq_of_lt (by omega)
      unfold chunkedMatches
      simp only [List.length_nil, h1, List.range_zero, List.flatMap_nil]
      rfl
    · have hb := numChunks_bounds nbuf.length s hs
      have hk1 : numChunks nbuf.length s = 1 := by
        rcases hk : numChunks nbuf.length s with _ | k'
        · rw [hk, Nat.zero_mul] at hb
          omega
        · rcases k' with _ | k''
          · rfl
          · exfalso
            have h2 : 2 ≤ numChunks nbuf.length s := by omega
            have h3 : 2 * s ≤ numChunks nbuf.length s * s := Nat.mul_le_mul_right s h2
            have h4 : 2 * s = s + s := by ring
            omega
      unfold chunkedMatches
      rw [hk1]
      rw [show List.range 1 = [0] from rfl]
      simp only [List.flatMap_cons, List.flatMap_nil, List.append_nil]
      have hchunk : chunk nbuf s 0 = nbuf := by
        unfold chunk
        rw [Nat.zero_mul, List.drop_zero]
        exact List.take_of_length_le hns
      rw [hchunk, Nat.zero_mul]
      rw [List.map_congr_left (fun a _ => offsetMatch_zero a), List.map_id']
  exact ⟨hmain, by rw [hmain]⟩

/-- Witness for C10: chunk size 8 covers a 4-byte NEW. -/
theorem C10_single_chunk_equiv_witness :
    chunkedMatches [5, 6] [9, 5, 6, 7] (naiveLsm [5, 6]) 8
      = bsdiffMatches [5, 6] [9, 5, 6, 7] (naiveLsm [5, 6]) ∧
    translateAll [5, 6] [9, 5, 6, 7]
      (chunkedMatches [5, 6] [9, 5, 6, 7] (naiveLsm [5, 6]) 8)
      = translateAll [5, 6] [9, 5, 6, 7]
        (bsdiffMatches [5, 6] [9, 5, 6, 7] (naiveLsm [5, 6])) :=
  C10_single_chunk_equiv [5, 6] [9, 5, 6, 7] (naiveLsm [5, 6]) 8
    (by decide) (by decide)

/-! ## Claim C7: termination and one control per match -/

theorem outer_step (obuf nbuf : List Byte) (lsm : List Byte → Nat × Nat)
    (hlsm : LsmSpec obuf lsm) (hN : nbuf.length < 2 ^ 64)
    (st : ScanState) (hg : st.scan < nbuf.length) (hinv : Inv obuf nbuf st) :
    ∃ (pre : List Match) (st' : ScanState),
      (∀ fuel, outerLoop obuf nbuf lsm (fuel + 1) st
        = pre ++ outerLoop obuf nbuf lsm fuel st') ∧
      Inv obuf nbuf st' ∧ mu nbuf.length st' < mu nbuf.length st ∧ pre.length ≤ 1 := by
  obtain ⟨hs1, hs2, hs3, hs4, hs5, hs6⟩ := hinv
  set r := innerLoop obuf nbuf lsm st.lastoffset (nbuf.length + 1)
    (st.scan + st.length) st.pos st.length (st.scan + st.length) 0 with hrdef
  have hin := innerLoop_spec obuf nbuf lsm st.lastoffset hlsm (nbuf.length + 1)
    (st.scan + st.length) st.pos st.length (st.scan + st.length) 0 (by omega) hs5
  rw [← hrdef] at hin
  obtain ⟨hi1, hi2, hi3, hi4⟩ := hin
  have hA : st.scan + st.length ≤ nbuf.length := hs2 hg
  have hrN : r.scan ≤ nbuf.length := hi2 hA
  have hd : r.scan < nbuf.length → r.length ≠ 0 := by
    intro h
    rcases (hi4 h).1 with ⟨_, hne⟩ | hlt <;> omega
  have hmd := mu_dec nbuf.length st r hg hA hi1 hrN hd
  by_cases hcond : r.length ≠ r.oldscore ∨ r.scan = nbuf.length
  · set e := emitMatch obuf nbuf st.lastscan st.lastpos r.scan r.pos with hedef
    have hes := emitMatch_spec obuf nbuf st.lastscan st.lastpos r.scan r.pos
      (by omega) hs4 hi3 hrN hN
    rw [← hedef] at hes
    obtain ⟨he1, he2, he3, he4, he5, he6, he7, he8⟩ := hes
    refine ⟨[e.1], ⟨r.scan, r.pos, r.length, e.2.1, e.2.2,
      (r.pos : Int) - (r.scan : Int)⟩, ?_, ?_, hmd, by simp⟩
    · intro fuel
      simp only [outerLoop]
      rw [if_pos hg, ← hrdef, if_pos hcond, ← hedef]
      rfl
    · unfold Inv
      dsimp only
      exact ⟨hrN, fun h => (hi4 h).2, he5, he6, hi3, fun h => he8 (by omega)⟩
  · have hcond2 : r.length = r.oldscore ∧ r.scan ≠ nbuf.length := by
      push_neg at hcond
      exact hcond
    have hrlt : r.scan < nbuf.length := by
      rcases hcond2 with ⟨_, hne⟩
      omega
    refine ⟨[], ⟨r.scan, r.pos, r.length, st.lastscan, st.lastpos, st.lastoffset⟩,
      ?_, ?_, hmd, by simp⟩
    · intro fuel
      simp only [outerLoop]
      rw [if_pos hg, ← hrdef, if_neg hcond]
      rfl
    · unfold Inv
      dsimp only
      exact ⟨hrN, fun h => (hi4 h).2, by omega, hs4, hi3, fun h => by omega⟩

theorem outerLoop_succ_stable (obuf nbuf : List Byte) (lsm : List Byte → Nat × Nat)
    (hlsm : LsmSpec obuf lsm) (hN : nbuf.length < 2 ^ 64) :
    ∀ (f : Nat) (st : ScanState), Inv obuf nbuf st → mu nbuf.length st ≤ f →
      outerLoop obuf nbuf lsm f st = outerLoop obuf nbuf lsm (f + 1) st := by
  intro f
  induction f with
  | zero =>
      intro st hinv hmu
      obtain ⟨hs1, hs2, hs3, hs4, hs5, hs6⟩ := hinv
      have hend : nbuf.length ≤ st.scan := by
        unfold mu at hmu
        by_cases h : st.length = 0
        · rw [if_pos h] at hmu; omega
        · rw [if_neg h] at hmu; omega
      have h1 : outerLoop obuf nbuf lsm 1 st = [] := by
        simp only [outerLoop]
        rw [if_neg (by omega)]
      rw [h1]
      rfl
  | succ f ih =>
      intro st hinv hmu
      by_cases hg : st.scan < nbuf.length
      · obtain ⟨pre, st', hstep, hinv', hmu', _⟩ :=
          outer_step obuf nbuf lsm hlsm hN st hg hinv
        rw [hstep f, hstep (f + 1), ih st' hinv' (by omega)]
      · have h1 : outerLoop obuf nbuf lsm (f + 1) st = [] := by
          simp only [outerLoop]
          rw [if_neg hg]
        have h2 : outerLoop obuf nbuf lsm (f + 1 + 1) st = [] := by
          simp only [outerLoop]
          rw [if_neg hg]
        rw [h1, h2]

theorem outerLoop_add_stable (obuf nbuf : List Byte) (lsm : List Byte → Nat × Nat)
    (hlsm : LsmSpec obuf lsm) (hN : nbuf.length < 2 ^ 64) :
    ∀ (k f : Nat) (st : ScanState), Inv obuf nbuf st → mu nbuf.length st ≤ f →
      outerLoop obuf nbuf lsm (f + k) st = outerLoop obuf nbuf lsm f st := by
  intro k
  induction k with
  | zero => intro f st _ _; rfl
  | succ k ih =>
      intro f st hinv hmu
      have h1 : f + (k + 1) = (f + k) + 1 := by omega
      rw [h1, ← outerLoop_succ_stable obuf nbuf lsm hlsm hN (f + k) st hinv (by omega)]
      exact ih f st hinv hmu

theorem outerLoop_length_le (obuf nbuf : List Byte) (lsm : List Byte → Nat × Nat)
    (hlsm : LsmSpec obuf lsm) (hN : nbuf.length < 2 ^ 64) :
    ∀ (f : Nat) (st : ScanState), Inv obuf nbuf st →
      (outerLoop obuf nbuf lsm f st).length ≤ mu nbuf.length st := by
  intro f
  induction f with
  | zero =>
      intro st hinv
      show (0 : Nat) ≤ _
      omega
  | succ f ih =>
      intro st hinv
      by_cases hg : st.scan < nbuf.length
      · obtain ⟨pre, st', hstep, hinv', hmu', hpre⟩ :=
          outer_step obuf nbuf lsm hlsm hN st hg hinv
        rw [hstep f]
        have := ih st' hinv'
        rw [List.length_append]
        omega
      · have h1 : outerLoop obuf nbuf lsm (f + 1) st = [] := by
          simp only [outerLoop]
          rw [if_neg hg]
        rw [h1]
        show (0 : Nat) ≤ _
        omega

/-- C7: for any finite OLD and NEW and conforming index, the scanner's match
sequence is finite — the fuelled outer loop has converged at the default fuel (any
extra fuel yields the same list), and its length is bounded — and the translator
fed n matches followed by close emits exactly n controls, the last with `seek = 0`. -/
theorem C7_termination (obuf nbuf : List Byte) (lsm : List Byte → Nat × Nat)
    (hlsm : LsmSpec obuf lsm) (hN : nbuf.length < 2 ^ 64) :
    (∀ extra : Nat, outerLoop obuf nbuf lsm (2 * nbuf.length + 2 + extra) initScan
      = bsdiffMatches obuf nbuf lsm) ∧
    (bsdiffMatches obuf nbuf lsm).length ≤ 2 * nbuf.length + 1 ∧
    (translateAll obuf nbuf (bsdiffMatches obuf nbuf lsm)).length
      = (bsdiffMatches obuf nbuf lsm).length ∧
    (∀ c, (translateAll obuf nbuf (bsdiffMatches obuf nbuf lsm)).getLast? = some c →
      c.seek = 0) := by
  have hmu : mu nbuf.length initScan = 2 * nbuf.length + 1 := by
    unfold mu initScan
    dsimp only
    rw [if_pos rfl]
    omega
  refine ⟨?_, ?_, ?_, ?_⟩
  · intro extra
    unfold bsdiffMatches
    exact outerLoop_add_stable obuf nbuf lsm hlsm hN extra (2 * nbuf.length + 2) initScan
      (Inv_init _ _) (by omega)
  · have := outerLoop_length_le obuf nbuf lsm hlsm hN (2 * nbuf.length + 2) initScan
      (Inv_init _ _)
    unfold bsdiffMatches
    omega
  · rw [translateAll_eq_controlsOf]
    exact controlsOf_length obuf nbuf _
  · rw [translateAll_eq_controlsOf]
    exact controlsOf_last_seek obuf nbuf _

/-- Witness for C7 on concrete buffers. -/
theorem C7_termination_witness :
    (∀ extra : Nat, outerLoop [5, 6] [9, 5, 6] (naiveLsm [5, 6])
      (2 * ([9, 5, 6] : List Byte).length + 2 + extra) initScan
      = bsdiffMatches [5, 6] [9, 5, 6] (naiveLsm [5, 6])) ∧
    (bsdiffMatches [5, 6] [9, 5, 6] (naiveLsm [5, 6])).length
      ≤ 2 * ([9, 5, 6] : List Byte).length + 1 ∧
    (translateAll [5, 6] [9, 5, 6] (bsdiffMatches [5, 6] [9, 5, 6]
      (naiveLsm [5, 6]))).length
      = (bsdiffMatches [5, 6] [9, 5, 6] (naiveLsm [5, 6])).length ∧
    (∀ c, (translateAll [5, 6] [9, 5, 6] (bsdiffMatches [5, 6] [9, 5, 6]
      (naiveLsm [5, 6]))).getLast? = some c → c.seek = 0) :=
  C7_termination [5, 6] [9, 5, 6] (naiveLsm [5, 6]) (naiveLsm_spec [5, 6]) (by decide)

/-! ## Claim C1: the round-trip (cycle) property -/

theorem head_eq_of_eq_cons {α : Type} (l : List α) (x : α) (xs : List α)
    (hl : l = x :: xs) (h : l ≠ []) : l.head h = x := by
  subst hl
  rfl

theorem getD_map_range (f : Nat → Byte) (n i : Nat) (h : i < n) :
    ((List.range n).map f).getD i 0 = f i := by
  simp [List.getD_eq_getElem?_getD, List.getElem?_map, List.getElem?_range, h]

theorem apply_segment (obuf nbuf : List Byte) (m : Match) (hb : MBounds obuf nbuf m) :
    ((List.range (addBytes obuf nbuf m).length).map
      (fun i => (addBytes obuf nbuf m).getD i 0 + obuf.getD (m.add_old_start + i) 0))
      ++ slice nbuf m.copy_start m.copy_end
    = slice nbuf m.add_new_start m.copy_end := by
  obtain ⟨hb1, hb2, hb3⟩ := hb
  rw [addBytes_length]
  have hmap : (List.range m.add_length).map
      (fun i => (addBytes obuf nbuf m).getD i 0 + obuf.getD (m.add_old_start + i) 0)
      = (List.range m.add_length).map (fun i => nbuf.getD (m.add_new_start + i) 0) := by
    apply List.map_congr_left
    intro i hi
    have hi' := List.mem_range.mp hi
    show (addBytes obuf nbuf m).getD i 0 + obuf.getD (m.add_old_start + i) 0 = _
    unfold addBytes
    rw [getD_map_range _ _ _ hi']
    exact sub_add_cancel _ _
  rw [hmap, map_getD_eq_slice nbuf m.add_new_start m.add_length
    (by unfold Match.copy_start at hb2; omega)]
  rw [show m.add_new_start + m.add_length = m.copy_start from rfl]
  exact slice_append nbuf m.add_new_start m.copy_start m.copy_end
    (by unfold Match.copy_start; omega) hb2

theorem applyControls_tiles (obuf nbuf : List Byte) (ho : obuf.length < 2 ^ 64) :
    ∀ (ms : List Match) (a : Nat),
      Tiles a nbuf.length ms → (∀ m ∈ ms, MBounds obuf nbuf m) →
      ∀ op, (∀ h : ms ≠ [], op = (ms.head h).add_old_start) →
      applyControls obuf op (controlsOf obuf nbuf ms) = slice nbuf a nbuf.length := by
  intro ms
  induction ms with
  | nil =>
      intro a ht _ op _
      have : a = nbuf.length := ht
      subst this
      rw [slice_len_zero]
      rfl
  | cons m rest ih =>
      intro a ht hb op hop
      obtain ⟨hans, ht2⟩ := ht
      have hbm := hb m (List.mem_cons_self m rest)
      have hopm : op = m.add_old_start := hop (List.cons_ne_nil m rest)
      cases rest with
      | nil =>
          have hce : m.copy_end = nbuf.length := ht2
          show ((List.range (addBytes obuf nbuf m).length).map
              (fun i => (addBytes obuf nbuf m).getD i 0 + obuf.getD (op + i) 0))
              ++ slice nbuf m.copy_start m.copy_end
              ++ applyControls obuf _ [] = slice nbuf a nbuf.length
          rw [show applyControls obuf
            (asUsize ((op : Int) + ((addBytes obuf nbuf m).length : Int) + 0)) [] = []
            from rfl]
          rw [List.append_assoc, List.append_nil, hopm, apply_segment obuf nbuf m hbm,
            hans, hce]
      | cons n rest' =>
          obtain ⟨hans2, htr⟩ := ht2
          have hbn := hb n (List.mem_cons_of_mem m (List.mem_cons_self n rest'))
          show ((List.range (addBytes obuf nbuf m).length).map
              (fun i => (addBytes obuf nbuf m).getD i 0 + obuf.getD (op + i) 0))
              ++ slice nbuf m.copy_start m.copy_end
              ++ applyControls obuf
                (asUsize ((op : Int) + ((addBytes obuf nbuf m).length : Int)
                  + ((n.add_old_start : Int)
                    - ((m.add_old_start : Int) + (m.add_length : Int)))))
                (controlsOf obuf nbuf (n :: rest'))
              = slice nbuf a nbuf.length
          have hcursor : asUsize ((op : Int) + ((addBytes obuf nbuf m).length : Int)
              + ((n.add_old_start : Int) - ((m.add_old_start : Int) + (m.add_length : Int))))
              = n.add_old_start := by
            rw [addBytes_length, hopm]
            rw [show (m.add_old_start : Int) + (m.add_length : Int)
                + ((n.add_old_start : Int) - ((m.add_old_start : Int) + (m.add_length : Int)))
                = (n.add_old_start : Int) by ring]
            exact asUsize_coe n.add_old_start (by
              obtain ⟨hn1, _, _⟩ := hbn
              omega)
          rw [hcursor, List.append_assoc]
          have hrec := ih m.copy_end ⟨hans2, htr⟩
            (fun x hx => hb x (List.mem_cons_of_mem m hx))
            n.add_old_start (fun h => by
              rw [head_eq_of_eq_cons (n :: rest') n rest' rfl h])
          rw [hrec, hopm, ← List.append_assoc, apply_segment obuf nbuf m hbm, hans]
          have hceN : m.copy_end ≤ nbuf.length := hbm.2.2
          have hacs : a ≤ m.copy_end := by
            obtain ⟨_, hb2, _⟩ := hbm
            unfold Match.copy_start at hb2
            omega
          exact slice_append nbuf a m.copy_end nbuf.length hacs hceN

theorem chunked_head (obuf nbuf : List Byte) (lsm : List Byte → Nat × Nat)
    (hlsm : LsmSpec obuf lsm) (hN : nbuf.length < 2 ^ 64) (s : Nat) (hs : 1 ≤ s) :
    ∀ h : chunkedMatches obuf nbuf lsm s ≠ [],
      ((chunkedMatches obuf nbuf lsm s).head h).add_old_start = 0 := by
  intro h
  have hk : 1 ≤ numChunks nbuf.length s := by
    by_contra hk0
    have hz : numChunks nbuf.length s = 0 := by omega
    apply h
    unfold chunkedMatches
    rw [hz]
    rfl
  have hsplit : chunkedMatches obuf nbuf lsm s = chunkList obuf nbuf lsm s 0
      ++ (List.range' 1 (numChunks nbuf.length s - 1)).flatMap (chunkList obuf nbuf lsm s) := by
    have h1 : chunkedMatches obuf nbuf lsm s
        = (List.range' 0 (numChunks nbuf.length s)).flatMap (chunkList obuf nbuf lsm s) := by
      unfold chunkedMatches chunkList
      rw [List.range_eq_range']
    rw [h1, show numChunks nbuf.length s = (numChunks nbuf.length s - 1) + 1 by omega,
      List.range'_succ, List.flatMap_cons]
    norm_num
  obtain ⟨_, _, hne0, hh0⟩ := chunkList_spec obuf nbuf lsm hlsm hN s 0 hs (by omega)
  obtain ⟨m0, rest0, h0⟩ := List.exists_cons_of_ne_nil hne0
  have hm0 : m0.add_old_start = 0 := by
    have := (hh0 hne0).1
    rw [head_eq_of_eq_cons _ m0 rest0 h0 hne0] at this
    exact this
  have hh : (chunkedMatches obuf nbuf lsm s).head h = m0 := by
    apply head_eq_of_eq_cons _ m0
      (rest0 ++ (List.range' 1 (numChunks nbuf.length s - 1)).flatMap
        (chunkList obuf nbuf lsm s))
    rw [hsplit, h0]
    rfl
  rw [hh]
  exact hm0

/-- C1: the round-trip (cycle) property — for any OLD, NEW, conforming index and
valid parameters, applying the emitted control stream (wrapping-add reconstruction
of `add` against the OLD cursor, then the literal `copy`, then the cursor advance
by `add_length + seek`) reproduces NEW exactly, so the final NEW cursor equals
`|NEW|`. -/
theorem C1_round_trip (obuf nbuf : List Byte) (lsm : List Byte → Nat × Nat)
    (hlsm : LsmSpec obuf lsm) (p : DiffParams)
    (hp : ∀ s, p.scan_chunk_size = some s → 1 ≤ s)
    (ho : obuf.length < 2 ^ 64) (hN : nbuf.length < 2 ^ 64) :
    applyControls obuf 0 (translateAll obuf nbuf (diffMatches obuf nbuf lsm p)) = nbuf ∧
    (applyControls obuf 0 (translateAll obuf nbuf (diffMatches obuf nbuf lsm p))).length
      = nbuf.length := by
  have hgood : Tiles 0 nbuf.length (diffMatches obuf nbuf lsm p) ∧
      (∀ m ∈ diffMatches obuf nbuf lsm p, MBounds obuf nbuf m) ∧
      (∀ h : diffMatches obuf nbuf lsm p ≠ [],
        ((diffMatches obuf nbuf lsm p).head h).add_old_start = 0) := by
    unfold diffMatches
    cases hpc : p.scan_chunk_size with
    | none => exact bsdiff_spec obuf nbuf lsm hlsm hN
    | some s =>
        have hs := hp s hpc
        obtain ⟨_, ht, _, hb⟩ := C5_chunked_stitching obuf nbuf lsm hlsm hN s hs
        exact ⟨ht, hb, chunked_head obuf nbuf lsm hlsm hN s hs⟩
  obtain ⟨ht, hb, hh⟩ := hgood
  rw [translateAll_eq_controlsOf]
  have happ := applyControls_tiles obuf nbuf ho (diffMatches obuf nbuf lsm p) 0 ht hb 0
    (fun h => (hh h).symm)
  rw [happ, slice_all]
  exact ⟨rfl, rfl⟩

/-- Witness for C1: a concrete diff in chunked mode round-trips. -/
theorem C1_round_trip_witness :
    applyControls [5, 6, 7] 0 (translateAll [5, 6, 7] [9, 5, 6, 7, 2]
      (diffMatches [5, 6, 7] [9, 5, 6, 7, 2] (naiveLsm [5, 6, 7]) ⟨1, some 2⟩))
      = [9, 5, 6, 7, 2] ∧
    (applyControls [5, 6, 7] 0 (translateAll [5, 6, 7] [9, 5, 6, 7, 2]
      (diffMatches [5, 6, 7] [9, 5, 6, 7, 2] (naiveLsm [5, 6, 7]) ⟨1, some 2⟩))).length
      = ([9, 5, 6, 7, 2] : List Byte).length :=
  C1_round_trip [5, 6, 7] [9, 5, 6, 7, 2] (naiveLsm [5, 6, 7]) (naiveLsm_spec [5, 6, 7])
    ⟨1, some 2⟩ (by intro s h; injection h with h; omega) (by decide) (by decide)

/-! ## Claim C6: scanner safety, via a bounds-checked shadow

Each slice access of `BsdiffIterator::next` is modelled with `List.getElem?`
(`none` = out-of-bounds panic) and each unsigned subtraction with `checkedSub`
(`none` = underflow). The shadow scanner is then proved to return `some` of the
plain scanner's output: no indexing is out of bounds and no subtraction
underflows. -/

/-- Checked `usize` subtraction: `none` models the underflow panic. -/
def checkedSub (a b : Nat) : Option Nat := if b ≤ a then some (a - b) else none

theorem checkedSub_eq (a b : Nat) (h : b ≤ a) : checkedSub a b = some (a - b) := by
  simp [checkedSub, h]

theorem getElem?_eq_getD (l : List Byte) (i : Nat) (h : i < l.length) :
    l[i]? = some (l.getD i 0) := by
  rw [List.getElem?_eq_getElem h]
  simp [List.getD_eq_getElem?_getD, List.getElem?_eq_getElem h]

/-- Checked form of the guarded comparison `oi < obuflen && obuf[oi] == nbuf[j]`:
`nbuf[j]` is only read when the guard passes (`&&` short-circuits). -/
def hitAtChk (obuf nbuf : List Byte) (lastoffset : Int) (j : Nat) : Option Bool :=
  let oi := asUsize ((j : Int) + lastoffset)
  if oi < obuf.length then do
    let ob ← obuf[oi]?
    let nb ← nbuf[j]?
    pure (decide (ob = nb))
  else pure false

theorem hitAtChk_eq (obuf nbuf : List Byte) (lo : Int) (j : Nat) (hj : j < nbuf.length) :
    hitAtChk obuf nbuf lo j = some (hitAt obuf nbuf lo j) := by
  unfold hitAtChk hitAt
  by_cases h : asUsize ((j : Int) + lo) < obuf.length
  · rw [if_pos h, getElem?_eq_getD obuf _ h, getElem?_eq_getD nbuf j hj]
    simp [h]
  · rw [if_neg h]
    simp [h]

/-- Checked form of the `while scsc < scan + length` scoring loop: walk the
traversed positions, reading the guarded comparison at each. -/
def scscCountChk (obuf nbuf : List Byte) (lo : Int) : List Nat → Nat → Option Nat
  | [], os => some os
  | j :: rest, os => do
      let h ← hitAtChk obuf nbuf lo j
      scscCountChk obuf nbuf lo rest (if h then os + 1 else os)

theorem scscCountChk_eq (obuf nbuf : List Byte) (lo : Int) :
    ∀ (l : List Nat) (os : Nat), (∀ j ∈ l, j < nbuf.length) →
      scscCountChk obuf nbuf lo l os = some (os + l.countP (hitAt obuf nbuf lo)) := by
  intro l
  induction l with
  | nil => intro os _; simp [scscCountChk]
  | cons j rest ih =>
      intro os hl
      show (hitAtChk obuf nbuf lo j).bind _ = _
      rw [hitAtChk_eq obuf nbuf lo j (hl j (List.mem_cons_self j rest))]
      rw [Option.some_bind]
      rw [ih _ (fun x hx => hl x (List.mem_cons_of_mem j hx))]
      by_cases hh : hitAt obuf nbuf lo j
      · simp only [hh, if_pos, List.countP_cons, hh]
        simp
        omega
      · simp only [List.countP_cons]
        simp [hh]

/-- Checked forward-extension loop: both byte reads are bounds-checked. -/
def lenfLoopChk (obuf nbuf : List Byte) (lastpos lastscan : Nat) :
    List Nat → (Int × Int × Int) → Option (Int × Int × Int)
  | [], acc => some acc
  | i :: rest, acc => do
      let ob ← obuf[lastpos + i]?
      let nb ← nbuf[lastscan + i]?
      let s := if ob = nb then acc.1 + 1 else acc.1
      lenfLoopChk obuf nbuf lastpos lastscan rest
        (if acc.2.1 * 2 - acc.2.2 < s * 2 - ((i : Int) + 1) then (s, s, (i : Int) + 1)
         else (s, acc.2.1, acc.2.2))

theorem lenfLoopChk_eq (obuf nbuf : List Byte) (lastpos lastscan : Nat) :
    ∀ (l : List Nat) (acc : Int × Int × Int),
      (∀ i ∈ l, lastpos + i < obuf.length ∧ lastscan + i < nbuf.length) →
      lenfLoopChk obuf nbuf lastpos lastscan l acc
        = some (l.foldl (lenfStep obuf nbuf lastpos lastscan) acc) := by
  intro l
  induction l with
  | nil => intro acc _; simp [lenfLoopChk]
  | cons i rest ih =>
      intro acc hl
      obtain ⟨h1, h2⟩ := hl i (List.mem_cons_self i rest)
      simp only [lenfLoopChk, getElem?_eq_getD obuf _ h1, getElem?_eq_getD nbuf _ h2,
        Option.bind_eq_bind, Option.some_bind, List.foldl_cons]
      exact ih _ (fun x hx => hl x (List.mem_cons_of_mem i hx))

/-- Checked backward-extension loop: the index subtractions and byte reads are
checked. -/
def lenbLoopChk (obuf nbuf : List Byte) (pos scan : Nat) :
    List Nat → (Int × Int × Int) → Option (Int × Int × Int)
  | [], acc => some acc
  | i :: rest, acc => do
      let pi ← checkedSub pos i
      let si ← checkedSub scan i
      let ob ← obuf[pi]?
      let nb ← nbuf[si]?
      let s := if ob = nb then acc.1 + 1 else acc.1
      lenbLoopChk obuf nbuf pos scan rest
        (if acc.2.1 * 2 - acc.2.2 < s * 2 - (i : Int) then (s, s, (i : Int))
         else (s, acc.2.1, acc.2.2))

theorem lenbLoopChk_eq (obuf nbuf : List Byte) (pos scan : Nat) :
    ∀ (l : List Nat) (acc : Int × Int × Int),
      (∀ i ∈ l, i ≤ pos ∧ i ≤ scan ∧ pos - i < obuf.length ∧ scan - i < nbuf.length) →
      lenbLoopChk obuf nbuf pos scan l acc
        = some (l.foldl (lenbStep obuf nbuf pos scan) acc) := by
  intro l
  induction l with
  | nil => intro acc _; simp [lenbLoopChk]
  | cons i rest ih =>
      intro acc hl
      obtain ⟨h1, h2, h3, h4⟩ := hl i (List.mem_cons_self i rest)
      simp only [lenbLoopChk, checkedSub_eq pos i h1, checkedSub_eq scan i h2,
        getElem?_eq_getD obuf _ h3, getElem?_eq_getD nbuf _ h4,
        Option.bind_eq_bind, Option.some_bind, List.foldl_cons]
      exact ih _ (fun x hx => hl x (List.mem_cons_of_mem i hx))

/-- Checked overlap-arbitration loop. -/
def lensLoopChk (obuf nbuf : List Byte) (lastscan lastpos pos scan lenf lenb overlap : Nat) :
    List Nat → (Int × Int × Nat) → Option (Int × Int × Nat)
  | [], acc => some acc
  | i :: rest, acc => do
      let a1 ← checkedSub (lastscan + lenf) overlap
      let a2 ← checkedSub (lastpos + lenf) overlap
      let a3 ← checkedSub scan lenb
      let a4 ← checkedSub pos lenb
      let nb1 ← nbuf[a1 + i]?
      let ob1 ← obuf[a2 + i]?
      let nb2 ← nbuf[a3 + i]?
      let ob2 ← obuf[a4 + i]?
      let s := if nb1 = ob1 then acc.1 + 1 else acc.1
      let s := if nb2 = ob2 then s - 1 else s
      lensLoopChk obuf nbuf lastscan lastpos pos scan lenf lenb overlap rest
        (if acc.2.1 < s then (s, s, i + 1) else (s, acc.2.1, acc.2.2))

theorem lensLoopChk_eq (obuf nbuf : List Byte) (lastscan lastpos pos scan lenf lenb overlap : Nat)
    (ho1 : overlap ≤ lastscan + lenf) (ho2 : overlap ≤ lastpos + lenf)
    (hb1 : lenb ≤ scan) (hb2 : lenb ≤ pos) :
    ∀ (l : List Nat) (acc : Int × Int × Nat),
      (∀ i ∈ l, lastscan + lenf - overlap + i < nbuf.length ∧
        lastpos + lenf - overlap + i < obuf.length ∧
        scan - lenb + i < nbuf.length ∧ pos - lenb + i < obuf.length) →
      lensLoopChk obuf nbuf lastscan lastpos pos scan lenf lenb overlap l acc
        = some (l.foldl (lensStep obuf nbuf lastscan lastpos pos scan lenf lenb overlap) acc) := by
  intro l
  induction l with
  | nil => intro acc _; simp [lensLoopChk]
  | cons i rest ih =>
      intro acc hl
      obtain ⟨h1, h2, h3, h4⟩ := hl i (List.mem_cons_self i rest)
      simp only [lensLoopChk, checkedSub_eq _ _ ho1, checkedSub_eq _ _ ho2,
        checkedSub_eq _ _ hb1, checkedSub_eq _ _ hb2,
        getElem?_eq_getD nbuf _ h1, getElem?_eq_getD obuf _ h2,
        getElem?_eq_getD nbuf _ h3, getElem?_eq_getD obuf _ h4,
        Option.bind_eq_bind, Option.some_bind, List.foldl_cons]
      exact ih _ (fun x hx => hl x (List.mem_cons_of_mem i hx))

theorem take_one_drop (l : List Byte) (i : Nat) (h : i < l.length) :
    (l.drop i).take 1 = [l.getD i 0] := by
  rw [List.drop_eq_getElem_cons h, List.take_succ_cons, List.take_zero]
  simp [List.getD_eq_getElem?_getD, List.getElem?_eq_getElem h]

/-- If the displaced byte comparison hits at an in-range position `j`, the index
must report a match of length at least 1 for the query `nbuf[j..]` (the matching
byte of OLD is a genuine witness). Hence `length = 0` forces a miss: the
`oldscore -= 1` decrement is always protected. -/
theorem hit_imp_len_pos (obuf nbuf : List Byte) (lsm : List Byte → Nat × Nat)
    (hlsm : LsmSpec obuf lsm) (lo : Int) (j : Nat) (hj : j < nbuf.length)
    (hhit : hitAt obuf nbuf lo j = true) : 1 ≤ (lsm (nbuf.drop j)).2 := by
  unfold hitAt at hhit
  rw [decide_eq_true_iff] at hhit
  obtain ⟨hoi, heq⟩ := hhit
  have hm : MatchesAt obuf (nbuf.drop j) (asUsize ((j : Int) + lo)) 1 := by
    refine ⟨by omega, ?_, ?_⟩
    · rw [List.length_drop]
      omega
    · rw [take_one_drop obuf _ hoi, take_one_drop nbuf j hj, heq]
  exact (hlsm (nbuf.drop j)).2 _ 1 hm

theorem countP_range'_split (p : Nat → Bool) (a m k : Nat) (h : m ≤ k) :
    (List.range' a k).countP p
      = (List.range' a m).countP p + (List.range' (a + m) (k - m)).countP p := by
  rw [← List.countP_append]
  congr 1
  rw [List.range'_append_1]
  congr 1
  omega

theorem countP_range'_cons (p : Nat → Bool) (a k : Nat) (h : 1 ≤ k) :
    (List.range' a k).countP p
      = (if p a then 1 else 0) + (List.range' (a + 1) (k - 1)).countP p := by
  cases k with
  | zero => omega
  | succ k' =>
      rw [List.range'_succ, List.countP_cons]
      by_cases hp : p a <;> simp [hp] <;> omega

theorem countP_range'_zero (p : Nat → Bool) (a k : Nat)
    (h : ∀ j, a ≤ j → j < a + k → p j = false) :
    (List.range' a k).countP p = 0 := by
  rw [List.countP_eq_zero]
  intro j hj
  have hj' := List.mem_range'_1.mp hj
  rw [h j hj'.1 hj'.2]
  simp

/-- The `oldscore` invariant of the inner loop: `oldscore` counts the hits in the
traversed window `[scan, scsc)`, and every position the probe has passed beyond
the window saw no hit. -/
def ScoreInv (obuf nbuf : List Byte) (lo : Int) (scan scsc os : Nat) : Prop :=
  os = (List.range' scan (scsc - scan)).countP (hitAt obuf nbuf lo) ∧
  ∀ j, min scsc scan ≤ j → j < scan → hitAt obuf nbuf lo j = false

theorem score_step (obuf nbuf : List Byte) (lsm : List Byte → Nat × Nat)
    (hlsm : LsmSpec obuf lsm) (lo : Int) (scan scsc os : Nat) (hg : scan < nbuf.length)
    (hinv : ScoreInv obuf nbuf lo scan scsc os) :
    (hitAt obuf nbuf lo scan = true →
      1 ≤ os + (List.range' scsc (scan + (lsm (nbuf.drop scan)).2 - scsc)).countP
        (hitAt obuf nbuf lo)) ∧
    ScoreInv obuf nbuf lo (scan + 1) (max scsc (scan + (lsm (nbuf.drop scan)).2))
      (if hitAt obuf nbuf lo scan
        then os + (List.range' scsc (scan + (lsm (nbuf.drop scan)).2 - scsc)).countP
          (hitAt obuf nbuf lo) - 1
        else os + (List.range' scsc (scan + (lsm (nbuf.drop scan)).2 - scsc)).countP
          (hitAt obuf nbuf lo)) := by
  obtain ⟨hcount, hnohit⟩ := hinv
  set p := hitAt obuf nbuf lo with hp
  set len := (lsm (nbuf.drop scan)).2 with hlendef
  set os' := os + (List.range' scsc (scan + len - scsc)).countP p with hos'
  set scsc' := max scsc (scan + len) with hscsc'
  have hlen1 : p scan = true → 1 ≤ len := fun hh =>
    hit_imp_len_pos obuf nbuf lsm hlsm lo scan hg hh
  have hmaxl := le_max_left scsc (scan + len)
  have hmaxr := le_max_right scsc (scan + len)
  have hL1 : os' = (List.range' scan (scsc' - scan)).countP p := by
    by_cases hcase : scan ≤ scsc
    · by_cases hhi : scsc ≤ scan + len
      · have hm : scsc' = scan + len := by omega
        rw [hm, hos', hcount,
          countP_range'_split p scan (scsc - scan) (scan + len - scan) (by omega),
          show scan + (scsc - scan) = scsc by omega,
          show scan + len - scan - (scsc - scan) = scan + len - scsc by omega]
      · have hm : scsc' = scsc := by omega
        rw [hm, hos', hcount, show scan + len - scsc = 0 by omega]
        simp
    · have hos0 : os = 0 := by
        rw [hcount, show scsc - scan = 0 by omega]
        simp
      by_cases hhi : scan + len ≤ scsc
      · exfalso
        omega
      · have hm : scsc' = scan + len := by omega
        rw [hm, hos', hos0,
          countP_range'_split p scsc (scan - scsc) (scan + len - scsc) (by omega),
          show scsc + (scan - scsc) = scan by omega,
          show scan + len - scsc - (scan - scsc) = scan + len - scan by omega,
          countP_range'_zero p scsc (scan - scsc) (fun j hj1 hj2 =>
            hnohit j (by omega) (by omega)),
          show scan + len - scan = scsc' - scan by omega, hm]
        omega
  refine ⟨?_, ?_, ?_⟩
  · intro hh
    have hlp := hlen1 hh
    have hs1 : scan + 1 ≤ scsc' := by omega
    rw [hL1, countP_range'_cons p scan (scsc' - scan) (by omega), hh]
    simp
  · by_cases hh : p scan = true
    · rw [if_pos (by rw [hh])]
      have hlp := hlen1 hh
      have hs1 : scan + 1 ≤ scsc' := by omega
      rw [hL1, countP_range'_cons p scan (scsc' - scan) (by omega), hh,
        show scsc' - scan - 1 = scsc' - (scan + 1) by omega]
      simp
    · have hh' : p scan = false := by simpa using hh
      rw [if_neg (by rw [hh']; exact Bool.false_ne_true)]
      by_cases hs1 : scan + 1 ≤ scsc'
      · rw [hL1, countP_range'_cons p scan (scsc' - scan) (by omega), hh',
          show scsc' - scan - 1 = scsc' - (scan + 1) by omega]
        simp
      · rw [hL1, show scsc' - scan = 0 by omega, show scsc' - (scan + 1) = 0 by omega]
        simp
  · intro j hj1 hj2
    by_cases hs1 : scan + 1 ≤ scsc'
    · exfalso
      omega
    · rcases Nat.lt_or_ge j scan with hlt | hge
      · exact hnohit j (by omega) hlt
      · have hjs : j = scan := by omega
        subst hjs
        by_cases hh : p j = true
        · exact absurd (hlen1 hh) (by omega)
        · simpa using hh

/-- Checked inner loop: the scoring loop, the guarded decrement (checked
subtraction) and all byte reads are fallible. -/
def innerLoopChk (obuf nbuf : List Byte) (lsm : List Byte → Nat × Nat) (lastoffset : Int) :
    Nat → Nat → Nat → Nat → Nat → Nat → Option InnerRes
  | 0, scan, pos, length, _scsc, oldscore => some ⟨scan, pos, length, oldscore⟩
  | fuel + 1, scan, pos, length, scsc, oldscore =>
    if scan < nbuf.length then do
      let r := lsm (nbuf.drop scan)
      let pos := r.1
      let length := r.2
      let oldscore ← scscCountChk obuf nbuf lastoffset
        (List.range' scsc (scan + length - scsc)) oldscore
      let scsc := max scsc (scan + length)
      if (length = oldscore ∧ length ≠ 0) ∨ oldscore + 8 < length then
        pure ⟨scan, pos, length, oldscore⟩
      else do
        let h ← hitAtChk obuf nbuf lastoffset scan
        let oldscore ← if h then checkedSub oldscore 1 else pure oldscore
        innerLoopChk obuf nbuf lsm lastoffset fuel (scan + 1) pos length scsc oldscore
    else some ⟨scan, pos, length, oldscore⟩

theorem innerLoopChk_eq (obuf nbuf : List Byte) (lsm : List Byte → Nat × Nat)
    (hlsm : LsmSpec obuf lsm) (lo : Int) :
    ∀ (fuel scan pos length scsc os : Nat),
      ScoreInv obuf nbuf lo scan scsc os →
      innerLoopChk obuf nbuf lsm lo fuel scan pos length scsc os
        = some (innerLoop obuf nbuf lsm lo fuel scan pos length scsc os) := by
  intro fuel
  induction fuel with
  | zero => intro scan pos length scsc os _; rfl
  | succ fuel ih =>
      intro scan pos length scsc os hinv
      by_cases hg : scan < nbuf.length
      · obtain ⟨⟨hsl, hlq, _⟩, _⟩ := hlsm (nbuf.drop scan)
        have hqlen : (nbuf.drop scan).length = nbuf.length - scan := by simp
        have hjlt : ∀ j ∈ List.range' scsc (scan + (lsm (nbuf.drop scan)).2 - scsc),
            j < nbuf.length := by
          intro j hj
          have := List.mem_range'_1.mp hj
          omega
        obtain ⟨hT1, hT2⟩ := score_step obuf nbuf lsm hlsm lo scan scsc os hg hinv
        simp only [innerLoopChk, innerLoop]
        rw [if_pos hg, if_pos hg, scscCountChk_eq obuf nbuf lo _ os hjlt]
        simp only [Option.bind_eq_bind, Option.some_bind]
        by_cases hbrk : ((lsm (nbuf.drop scan)).2
              = os + (List.range' scsc (scan + (lsm (nbuf.drop scan)).2 - scsc)).countP
                  (hitAt obuf nbuf lo)
            ∧ (lsm (nbuf.drop scan)).2 ≠ 0)
          ∨ os + (List.range' scsc (scan + (lsm (nbuf.drop scan)).2 - scsc)).countP
              (hitAt obuf nbuf lo) + 8 < (lsm (nbuf.drop scan)).2
        · rw [if_pos hbrk, if_pos hbrk]
          rfl
        · rw [if_neg hbrk, if_neg hbrk, hitAtChk_eq obuf nbuf lo scan hg]
          simp only [Option.bind_eq_bind, Option.some_bind]
          by_cases hh : hitAt obuf nbuf lo scan = true
          · rw [if_pos hh, if_pos hh, checkedSub_eq _ 1 (hT1 hh)]
            simp only [Option.some_bind]
            rw [if_pos hh] at hT2
            exact ih _ _ _ _ _ hT2
          · rw [if_neg hh, if_neg hh]
            simp only [Option.pure_def, Option.some_bind]
            rw [if_neg hh] at hT2
            exact ih _ _ _ _ _ hT2
      · simp only [innerLoopChk, innerLoop]
        rw [if_neg hg, if_neg hg]

/-- Checked emission step: every `usize` subtraction (`scan - lastscan`,
`obuflen - lastpos`, `scan - lenb`, `lenf + lens - overlap`, `lenb - lens`,
`pos - lenb`) and every byte read is fallible. -/
def emitMatchChk (obuf nbuf : List Byte) (lastscan lastpos scan pos : Nat) :
    Option (Match × Nat × Nat) := do
  let d1 ← checkedSub scan lastscan
  let d2 ← checkedSub obuf.length lastpos
  let lf ← lenfLoopChk obuf nbuf lastpos lastscan (List.range (min d1 d2)) (0, 0, 0)
  let lenf := asUsize lf.2.2
  let lenb ←
    if nbuf.length ≤ scan then pure 0
    else do
      let d3 ← checkedSub scan lastscan
      let lb ← lenbLoopChk obuf nbuf pos scan (List.range' 1 (min d3 pos)) (0, 0, 0)
      pure (asUsize lb.2.2)
  let sb ← checkedSub scan lenb
  let fb ←
    if sb < lastscan + lenf then do
      let overlap ← checkedSub (lastscan + lenf) sb
      let ls ← lensLoopChk obuf nbuf lastscan lastpos pos scan lenf lenb overlap
        (List.range overlap) (0, 0, 0)
      let f1 ← checkedSub (lenf + ls.2.2) overlap
      let b1 ← checkedSub lenb ls.2.2
      pure (f1, b1)
    else pure (lenf, lenb)
  let ce ← checkedSub scan fb.2
  let lp ← checkedSub pos fb.2
  pure (⟨lastpos, lastscan, fb.1, ce⟩, ce, lp)

theorem emitMatchChk_eq (obuf nbuf : List Byte) (lastscan lastpos scan pos : Nat)
    (h1 : lastscan ≤ scan) (h2 : lastpos ≤ obuf.length) (h3 : pos ≤ obuf.length)
    (h4 : scan ≤ nbuf.length) (hN : nbuf.length < 2 ^ 64) :
    emitMatchChk obuf nbuf lastscan lastpos scan pos
      = some (emitMatch obuf nbuf lastscan lastpos scan pos) := by
  have hfb := lenfInt_bounds obuf nbuf lastpos lastscan
    (min (scan - lastscan) (obuf.length - lastpos))
  have hlenf : asUsize (lenfInt obuf nbuf lastpos lastscan
      (min (scan - lastscan) (obuf.length - lastpos)))
      ≤ min (scan - lastscan) (obuf.length - lastpos) :=
    asUsize_int_le _ _ hfb.1 hfb.2 (by omega)
  simp only [emitMatchChk, emitMatch]
  rw [checkedSub_eq scan lastscan h1, checkedSub_eq obuf.length lastpos h2]
  simp only [Option.bind_eq_bind, Option.some_bind]
  rw [lenfLoopChk_eq obuf nbuf lastpos lastscan
    (List.range (min (scan - lastscan) (obuf.length - lastpos))) (0, 0, 0)
    (by
      intro i hi
      have := List.mem_range.mp hi
      constructor <;> omega)]
  simp only [Option.some_bind]
  rw [show ((List.range (min (scan - lastscan) (obuf.length - lastpos))).foldl
      (lenfStep obuf nbuf lastpos lastscan) (0, 0, 0)).2.2
      = lenfInt obuf nbuf lastpos lastscan (min (scan - lastscan) (obuf.length - lastpos))
    from rfl]
  set lenf := asUsize (lenfInt obuf nbuf lastpos lastscan
    (min (scan - lastscan) (obuf.length - lastpos))) with hlenfdef
  by_cases hend : nbuf.length ≤ scan
  · rw [if_pos hend, if_pos hend]
    simp only [Option.pure_def, Option.some_bind]
    rw [checkedSub_eq scan 0 (by omega)]
    simp only [Option.some_bind]
    have hnb : ¬(scan - 0 < lastscan + lenf) := by omega
    rw [if_neg hnb, if_neg hnb]
    simp only [Option.pure_def, Option.some_bind]
    rw [checkedSub_eq pos 0 (by omega)]
    try simp only [Option.some_bind]
    try rfl
  · rw [if_neg hend, if_neg hend]
    have hbb := lenbInt_bounds obuf nbuf pos scan (min (scan - lastscan) pos)
    have hlenb : asUsize (lenbInt obuf nbuf pos scan (min (scan - lastscan) pos))
        ≤ min (scan - lastscan) pos :=
      asUsize_int_le _ _ hbb.1 hbb.2 (by omega)
    rw [lenbLoopChk_eq obuf nbuf pos scan
      (List.range' 1 (min (scan - lastscan) pos)) (0, 0, 0)
      (by
        intro i hi
        have := List.mem_range'_1.mp hi
        refine ⟨by omega, by omega, by omega, by omega⟩)]
    simp only [Option.some_bind, Option.pure_def]
    rw [show ((List.range' 1 (min (scan - lastscan) pos)).foldl
        (lenbStep obuf nbuf pos scan) (0, 0, 0)).2.2
        = lenbInt obuf nbuf pos scan (min (scan - lastscan) pos) from rfl]
    set lenb := asUsize (lenbInt obuf nbuf pos scan (min (scan - lastscan) pos)) with hlenbdef
    rw [checkedSub_eq scan lenb (by omega)]
    simp only [Option.some_bind]
    by_cases hov : scan - lenb < lastscan + lenf
    · rw [if_pos hov, if_pos hov]
      have hove : lastscan + lenf - (scan - lenb) ≤ lenf := by omega
      have hovb : lastscan + lenf - (scan - lenb) ≤ lenb := by omega
      rw [checkedSub_eq (lastscan + lenf) (scan - lenb) (by omega)]
      simp only [Option.bind_eq_bind, Option.some_bind]
      rw [lensLoopChk_eq obuf nbuf lastscan lastpos pos scan lenf lenb
        (lastscan + lenf - (scan - lenb)) (by omega) (by omega) (by omega) (by omega)
        (List.range (lastscan + lenf - (scan - lenb))) (0, 0, 0)
        (by
          intro i hi
          have := List.mem_range.mp hi
          refine ⟨by omega, by omega, by omega, by omega⟩)]
      simp only [Option.some_bind]
      rw [show ((List.range (lastscan + lenf - (scan - lenb))).foldl
          (lensStep obuf nbuf lastscan lastpos pos scan lenf lenb
            (lastscan + lenf - (scan - lenb))) (0, 0, 0)).2.2
          = lensNat obuf nbuf lastscan lastpos pos scan lenf lenb
            (lastscan + lenf - (scan - lenb)) from rfl]
      have hlens := lensNat_le obuf nbuf lastscan lastpos pos scan lenf lenb
        (lastscan + lenf - (scan - lenb))
      rw [checkedSub_eq (lenf + lensNat obuf nbuf lastscan lastpos pos scan lenf lenb
          (lastscan + lenf - (scan - lenb))) (lastscan + lenf - (scan - lenb)) (by omega),
        checkedSub_eq lenb (lensNat obuf nbuf lastscan lastpos pos scan lenf lenb
          (lastscan + lenf - (scan - lenb))) (by omega)]
      simp only [Option.some_bind, Option.pure_def]
      rw [checkedSub_eq scan (lenb - lensNat obuf nbuf lastscan lastpos pos scan lenf lenb
          (lastscan + lenf - (scan - lenb))) (by omega),
        checkedSub_eq pos (lenb - lensNat obuf nbuf lastscan lastpos pos scan lenf lenb
          (lastscan + lenf - (scan - lenb))) (by omega)]
      try simp only [Option.some_bind]
      try rfl
    · rw [if_neg hov, if_neg hov]
      simp only [Option.pure_def, Option.some_bind]
      rw [checkedSub_eq pos lenb (by omega)]
      try simp only [Option.some_bind]
      try rfl

/-- Checked outer loop: every step of `BsdiffIterator::next` with fallible
indexing and subtraction. -/
def outerLoopChk (obuf nbuf : List Byte) (lsm : List Byte → Nat × Nat) :
    Nat → ScanState → Option (List Match)
  | 0, _ => some []
  | fuel + 1, st =>
    if st.scan < nbuf.length then do
      let r ← innerLoopChk obuf nbuf lsm st.lastoffset (nbuf.length + 1)
        (st.scan + st.length) st.pos st.length (st.scan + st.length) 0
      if r.length ≠ r.oldscore ∨ r.scan = nbuf.length then do
        let e ← emitMatchChk obuf nbuf st.lastscan st.lastpos r.scan r.pos
        let rest ← outerLoopChk obuf nbuf lsm fuel
          ⟨r.scan, r.pos, r.length, e.2.1, e.2.2, (r.pos : Int) - (r.scan : Int)⟩
        pure (e.1 :: rest)
      else
        outerLoopChk obuf nbuf lsm fuel
          ⟨r.scan, r.pos, r.length, st.lastscan, st.lastpos, st.lastoffset⟩
    else some []

/-- The whole checked scan. -/
def bsdiffMatchesChk (obuf nbuf : List Byte) (lsm : List Byte → Nat × Nat) :
    Option (List Match) :=
  outerLoopChk obuf nbuf lsm (2 * nbuf.length + 2) initScan

theorem outerLoopChk_eq (obuf nbuf : List Byte) (lsm : List Byte → Nat × Nat)
    (hlsm : LsmSpec obuf lsm) (hN : nbuf.length < 2 ^ 64) :
    ∀ (fuel : Nat) (st : ScanState), Inv obuf nbuf st →
      outerLoopChk obuf nbuf lsm fuel st = some (outerLoop obuf nbuf lsm fuel st) := by
  intro fuel
  induction fuel with
  | zero => intro st _; rfl
  | succ fuel ih =>
      intro st hinv
      obtain ⟨hs1, hs2, hs3, hs4, hs5, hs6⟩ := hinv
      by_cases hg : st.scan < nbuf.length
      · have hSI : ScoreInv obuf nbuf st.lastoffset (st.scan + st.length)
            (st.scan + st.length) 0 := by
          refine ⟨by simp, ?_⟩
          intro j hj1 hj2
          exfalso
          omega
        set r := innerLoop obuf nbuf lsm st.lastoffset (nbuf.length + 1)
          (st.scan + st.length) st.pos st.length (st.scan + st.length) 0 with hrdef
        have hin := innerLoop_spec obuf nbuf lsm st.lastoffset hlsm (nbuf.length + 1)
          (st.scan + st.length) st.pos st.length (st.scan + st.length) 0 (by omega) hs5
        rw [← hrdef] at hin
        obtain ⟨hi1, hi2, hi3, hi4⟩ := hin
        have hA : st.scan + st.length ≤ nbuf.length := hs2 hg
        have hrN : r.scan ≤ nbuf.length := hi2 hA
        simp only [outerLoopChk, outerLoop]
        rw [if_pos hg, if_pos hg,
          innerLoopChk_eq obuf nbuf lsm hlsm st.lastoffset (nbuf.length + 1)
            (st.scan + st.length) st.pos st.length (st.scan + st.length) 0 hSI, ← hrdef]
        simp only [Option.bind_eq_bind, Option.some_bind]
        by_cases hcond : r.length ≠ r.oldscore ∨ r.scan = nbuf.length
        · rw [if_pos hcond, if_pos hcond,
            emitMatchChk_eq obuf nbuf st.lastscan st.lastpos r.scan r.pos
              (by omega) hs4 hi3 hrN hN]
          simp only [Option.some_bind]
          set e := emitMatch obuf nbuf st.lastscan st.lastpos r.scan r.pos with hedef
          have hes := emitMatch_spec obuf nbuf st.lastscan st.lastpos r.scan r.pos
            (by omega) hs4 hi3 hrN hN
          rw [← hedef] at hes
          obtain ⟨he1, he2, he3, he4, he5, he6, he7, he8⟩ := hes
          have hinv' : Inv obuf nbuf ⟨r.scan, r.pos, r.length, e.2.1, e.2.2,
              (r.pos : Int) - (r.scan : Int)⟩ := by
            unfold Inv
            dsimp only
            exact ⟨hrN, fun h => (hi4 h).2, he5, he6, hi3, fun h => he8 (by omega)⟩
          rw [ih _ hinv']
          simp only [Option.some_bind, Option.pure_def]
        · rw [if_neg hcond, if_neg hcond]
          have hcond2 : r.length = r.oldscore ∧ r.scan ≠ nbuf.length := by
            push_neg at hcond
            exact hcond
          have hrlt : r.scan < nbuf.length := by
            rcases hcond2 with ⟨_, hne⟩
            omega
          have hinv' : Inv obuf nbuf ⟨r.scan, r.pos, r.length, st.lastscan, st.lastpos,
              st.lastoffset⟩ := by
            unfold Inv
            dsimp only
            exact ⟨hrN, fun h => (hi4 h).2, by omega, hs4, hi3, fun h => by omega⟩
          exact ih _ hinv'
      · simp only [outerLoopChk, outerLoop]
        rw [if_neg hg, if_neg hg]

/-- C6: scanner totality/safety — under the substring-index contract, every step
of `BsdiffIterator::next` is well-defined: the checked shadow scanner, in which
every slice access and every unsigned subtraction (including `oldscore -= 1`,
`obuflen - lastpos`, `scan - lenb`, `lenf + lens - overlap`, `lenb - lens`) is
fallible, returns exactly `some` of the plain scanner's match list, so no access
is out of bounds and no subtraction underflows. -/
theorem C6_scanner_safety (obuf nbuf : List Byte) (lsm : List Byte → Nat × Nat)
    (hlsm : LsmSpec obuf lsm) (hN : nbuf.length < 2 ^ 64) :
    bsdiffMatchesChk obuf nbuf lsm = some (bsdiffMatches obuf nbuf lsm) :=
  outerLoopChk_eq obuf nbuf lsm hlsm hN (2 * nbuf.length + 2) initScan (Inv_init _ _)

/-- Witness for C6 on concrete buffers. -/
theorem C6_scanner_safety_witness :
    bsdiffMatchesChk [5, 6] [9, 5, 6, 7] (naiveLsm [5, 6])
      = some (bsdiffMatches [5, 6] [9, 5, 6, 7] (naiveLsm [5, 6])) :=
  C6_scanner_safety [5, 6] [9, 5, 6, 7] (naiveLsm [5, 6]) (naiveLsm_spec [5, 6]) (by decide)

end Bidiff
